import Mathlib

/-! RaftLib `GraphTools`: breadth-first traversal and subgraph duplication.

A shallow embedding of `src/graphtools.cpp`.

* A `raft::kernel*` is an address (`KernelPtr`), `nullptr` being address `0`.
* The heap is a finite list of kernels; the kernel at address `p` (`p ≥ 1`) is
  the `p - 1`-th entry.
* Each kernel carries its output port table (the `PortInfo` values of
  `output.portmap.map` in iteration order), its input port table, its display
  name and the pointer its `clone()` returns.
* `output.portmap.mutex_map` of every kernel is a non-recursive mutex; the
  world keeps the list of kernels whose mutex is currently held.
* Loops that may spin (`while( ! try_lock() ) yield()`) and the `while` loops of
  `__BFS` are driven by a fuel counter; `none` means the fuel ran out.
-/

namespace raft

/-- A `raft::kernel*`. -/
abbrev KernelPtr := Nat

/-- The null kernel pointer. -/
abbrev nullptr : KernelPtr := 0

/-- Delivery order of a link, `raft::order`. -/
inductive order where
  | in_
  | out
deriving DecidableEq, Repr

/-- The fields of `PortInfo` read by `graphtools.cpp`. -/
structure PortInfo where
  my_name : String
  other_kernel : KernelPtr
  other_name : String
  out_of_order : Bool
deriving DecidableEq, Repr

/-- A `raft::kernel` as far as `graphtools.cpp` looks at it: `name` is what
`common::printClassName` prints, `output` and `input` are the values of the two
port maps in iteration order, `clone` is the result of `clone()` (`nullptr`
when the kernel cannot be cloned). -/
structure kernel where
  name : String
  output : List PortInfo
  input : List PortInfo
  clone : KernelPtr
deriving DecidableEq, Repr

/-- The heap of kernels: address `p ≥ 1` holds `kernels[p - 1]`. -/
structure Graph where
  kernels : List kernel
deriving Repr

/-- A kernel without ports; reading an address outside the heap yields it. -/
def kernel.empty : kernel := ⟨"", [], [], nullptr⟩

/-- Dereference of a kernel pointer. -/
def Graph.deref (g : Graph) (k : KernelPtr) : kernel :=
  if k = nullptr then kernel.empty else g.kernels.getD (k - 1) kernel.empty

/-- A pointer that addresses a kernel of the heap. -/
def Graph.valid (g : Graph) (k : KernelPtr) : Prop :=
  1 ≤ k ∧ k ≤ g.kernels.length

instance (g : Graph) (k : KernelPtr) : Decidable (g.valid k) := by
  unfold Graph.valid; infer_instance

/-- Every `other_kernel` stored in an output port is null or addresses a kernel
of the heap (no dangling pointer). -/
def Graph.WellFormed (g : Graph) : Prop :=
  ∀ k ∈ g.kernels, ∀ p ∈ k.output, p.other_kernel ≤ g.kernels.length

instance (g : Graph) : Decidable g.WellFormed := by
  unfold Graph.WellFormed; infer_instance

/-- The exceptions that leave `__BFS`. -/
inductive Exception where
  | PortException (msg : String)
  | PortNotFoundException (name : String)
deriving DecidableEq, Repr

/-- How a call ends: it returns, an exception propagates to the caller (with the
state left behind), `exit` ends the process, or a failed `assert` aborts it. -/
inductive Outcome (α : Type) where
  | returned (a : α)
  | threw (e : Exception) (a : α)
  | exited (status : Nat)
  | aborted
deriving DecidableEq, Repr

/-- `EXIT_FAILURE`. -/
abbrev EXIT_FAILURE : Nat := 1

/-- What a visitor can touch besides its own arguments: the mutexes held and the
object behind its `void *data`. -/
structure World (σ : Type) where
  locks : List KernelPtr
  data : σ
deriving DecidableEq, Repr

/-- The variables of a `__BFS` call: the queue and the visited set (both passed
by reference), the mutexes held, and the object behind `data`. -/
structure State (σ : Type) where
  queue : List KernelPtr
  visited_set : List KernelPtr
  locks : List KernelPtr
  data : σ
deriving DecidableEq, Repr

/-- An `edge_func`, `void( PortInfo&, PortInfo&, void* )`, as the change it makes
to the object behind `data`. -/
abbrev edge_func (σ : Type) := PortInfo → PortInfo → σ → σ

/-- A `vertex_func`, `void( raft::kernel*, void* )`: given fuel, the kernel and
the world it yields how the call ends, or `none` when the fuel ran out. -/
abbrev vertex_func (σ : Type) := Nat → KernelPtr → World σ → Option (Outcome (World σ))

/-- The loop `while( ! mutex_map.try_lock() ){ yield(); }` on the mutex of `k`.
The mutex is declared in `portmap_t.hpp`, outside the repository slice; it is
taken as non-recursive ("no re-entrant locking is provided"), so `try_lock`
fails for as long as the mutex is held. -/
def lock (locks : List KernelPtr) (k : KernelPtr) : Nat → Option (List KernelPtr)
  | 0 => none
  | fuel + 1 => if k ∈ locks then lock locks k fuel else some (k :: locks)

/-- The call `mutex_map.unlock()` on the mutex of `k`. -/
def unlock (locks : List KernelPtr) (k : KernelPtr) : List KernelPtr :=
  locks.erase k

/-- Modelled from the spec: `Port::getPortInfoFor` (the input-port lookup
`inputPortTable.findByName(name) -> PortInfo`, which "fails with `PortNotFound`
if absent"); its source is not part of the repository slice. -/
def getPortInfoFor (table : List PortInfo) (name : String) : Except Exception PortInfo :=
  match table.find? (fun p => p.my_name = name) with
  | some p => .ok p
  | none => .error (.PortNotFoundException name)

/-- The text streamed into `ss` before `PortException` is thrown. -/
def unconnectedMessage (k : kernel) (source : PortInfo) : String :=
  "Unconnected port detected at " ++ k.name ++ "[ \"" ++ source.my_name ++
    " \"], please fix and recompile."

end raft

namespace GraphTools
open raft

/-- The seeding `for_each` of the three `BFS` overloads: every source is pushed
on the queue and inserted in the visited set. -/
def seed (source_kernels : List KernelPtr) : List KernelPtr × List KernelPtr :=
  source_kernels.foldl (fun qv k => (qv.1 ++ [k], qv.2.insert k)) ([], [])

/-- The last statement of the port loop of the edge `__BFS`:
`if( visited_set.find( source.other_kernel ) == visited_set.end() ){ push; insert }`. -/
def visit_dst {σ : Type} (source : PortInfo) (st : State σ) : State σ :=
  if source.other_kernel ∉ st.visited_set then
    { st with queue := st.queue ++ [source.other_kernel],
              visited_set := st.visited_set.insert source.other_kernel }
  else st

/-- The loop `for( auto &port : map_of_ports )` of the edge `__BFS` for the
dequeued kernel `k`. -/
def edge_ports {σ : Type} (g : Graph) (func : edge_func σ) (connected_error : Bool)
    (k : KernelPtr) : List PortInfo → State σ → Outcome (State σ)
  | [], st => .returned st
  | source :: rest, st =>
    if source.other_kernel ≠ nullptr then
      match getPortInfoFor (g.deref source.other_kernel).input source.other_name with
      | .error e => .threw e st
      | .ok dst =>
        edge_ports g func connected_error k rest
          (visit_dst source { st with data := func source dst st.data })
    else if connected_error then
      .threw (.PortException (unconnectedMessage (g.deref k) source))
        { st with locks := unlock st.locks k }
    else
      edge_ports g func connected_error k rest (visit_dst source st)

/-- `GraphTools::__BFS( queue, visited_set, edge_func, data, connected_error )`. -/
def __BFS_edge_func {σ : Type} (g : Graph) (func : edge_func σ) (connected_error : Bool) :
    Nat → State σ → Option (Outcome (State σ))
  | 0, _ => none
  | fuel + 1, st =>
    match st.queue with
    | [] => some (.returned st)
    | k :: rest =>
      if k = nullptr then some (.returned { st with queue := rest })
      else
        match lock st.locks k (fuel + 1) with
        | none => none
        | some locks =>
          match edge_ports g func connected_error k (g.deref k).output
              { st with queue := rest, locks := locks } with
          | .returned st1 =>
            __BFS_edge_func g func connected_error fuel
              { st1 with locks := unlock st1.locks k }
          | other => some other

/-- The loop `for( auto &port : map_of_ports )` of the vertex `__BFS`. -/
def vertex_ports {σ : Type} : List PortInfo → State σ → State σ
  | [], st => st
  | source :: rest, st =>
    if source.other_kernel ≠ nullptr then
      if source.other_kernel ∉ st.visited_set then
        vertex_ports rest
          { st with queue := st.queue ++ [source.other_kernel],
                    visited_set := st.visited_set.insert source.other_kernel }
      else vertex_ports rest st
    else vertex_ports rest st

/-- `GraphTools::__BFS( queue, visited_set, vertex_func, data )`. -/
def __BFS_vertex_func {σ : Type} (g : Graph) (func : vertex_func σ) :
    Nat → State σ → Option (Outcome (State σ))
  | 0, _ => none
  | fuel + 1, st =>
    match st.queue with
    | [] => some (.returned st)
    | source :: rest =>
      if source = nullptr then some (.returned st)
      else
        match lock st.locks source (fuel + 1) with
        | none => none
        | some locks =>
          match func (fuel + 1) source ⟨locks, st.data⟩ with
          | none => none
          | some (.returned w) =>
            let st1 := vertex_ports (g.deref source).output
              { st with queue := rest, locks := w.locks, data := w.data }
            __BFS_vertex_func g func fuel { st1 with locks := unlock st1.locks source }
          | some (.threw e w) =>
            some (.threw e { st with queue := rest, locks := w.locks, data := w.data })
          | some (.exited status) => some (.exited status)
          | some .aborted => some .aborted

/-- `GraphTools::BFS( std::set< raft::kernel* >&, edge_func, data, connected_error )`;
`source_kernels` lists the set in iteration order, `locks` the mutexes held on
entry. -/
def BFS_set_edge_func {σ : Type} (g : Graph) (source_kernels : List KernelPtr)
    (func : edge_func σ) (data : σ) (connected_error : Bool) (locks : List KernelPtr)
    (fuel : Nat) : Option (Outcome (State σ)) :=
  __BFS_edge_func g func connected_error fuel
    ⟨(seed source_kernels).1, (seed source_kernels).2, locks, data⟩

/-- `GraphTools::BFS( std::vector< raft::kernel* >&, edge_func, data, connected_error )`. -/
def BFS_vector_edge_func {σ : Type} (g : Graph) (source_kernels : List KernelPtr)
    (func : edge_func σ) (data : σ) (connected_error : Bool) (locks : List KernelPtr)
    (fuel : Nat) : Option (Outcome (State σ)) :=
  __BFS_edge_func g func connected_error fuel
    ⟨(seed source_kernels).1, (seed source_kernels).2, locks, data⟩

/-- `GraphTools::BFS( std::set< raft::kernel* >&, vertex_func, data )`. -/
def BFS_set_vertex_func {σ : Type} (g : Graph) (source_kernels : List KernelPtr)
    (func : vertex_func σ) (data : σ) (locks : List KernelPtr)
    (fuel : Nat) : Option (Outcome (State σ)) :=
  __BFS_vertex_func g func fuel
    ⟨(seed source_kernels).1, (seed source_kernels).2, locks, data⟩

/-- One `link( a, a_port, b, b_port, order )` request held by a `raft::temp_map`. -/
structure Link where
  src : KernelPtr
  src_port : String
  dst : KernelPtr
  dst_port : String
  ord : order
deriving DecidableEq, Repr

/-- Modelled from the spec: `raft::temp_map` (the Wiring Map, "an accumulator of
pending edges" that "holds `link(srcVertex, srcPortName, dstVertex, dstPortName,
orderingMode)` requests"); `tempmap.hpp` is not part of the repository slice. -/
structure temp_map where
  links : List Link
deriving DecidableEq, Repr

/-- Modelled from the spec: `raft::temp_map::link`, which records one more link
request in the Wiring Map. -/
def temp_map.link (m : temp_map) (a : KernelPtr) (a_port : String) (b : KernelPtr)
    (b_port : String) (ord : order) : temp_map :=
  ⟨m.links ++ [⟨a, a_port, b, b_port, ord⟩]⟩

/-- `std::map::find`. -/
def map_find {β : Type} (m : List (Nat × β)) (key : Nat) : Option β :=
  m.lookup key

/-- `std::map::insert( std::make_pair( key, value ) )`: the map afterwards and the
`second` of the returned pair (whether the insertion took place). -/
def map_insert {β : Type} (m : List (Nat × β)) (key : Nat) (value : β) :
    List (Nat × β) × Bool :=
  match m.lookup key with
  | some _ => (m, false)
  | none => (m ++ [(key, value)], true)

/-- `struct Data` of `duplicateFromVertexToSource`; `temp_map` is the object the
member pointer refers to (`new raft::temp_map()`). -/
structure Data where
  kernel_map : List (Nat × KernelPtr)
  unmatched : List (Nat × PortInfo)
  temp_map : temp_map
deriving DecidableEq, Repr

/-- The loop `for( auto &port : map_of_ports )` of the lambda in
`duplicateFromVertexToSource`. -/
def duplicate_ports (current cloned_kernel : KernelPtr) : List PortInfo → Data → Data
  | [], d => d
  | port_info :: rest, d =>
    let dst_kern_hash : Nat := port_info.other_kernel
    match map_find d.kernel_map dst_kern_hash with
    | none =>
      duplicate_ports current cloned_kernel rest
        { d with unmatched := (map_insert d.unmatched current port_info).1 }
    | some found =>
      duplicate_ports current cloned_kernel rest
        { d with temp_map := d.temp_map.link cloned_kernel port_info.my_name found
                   port_info.other_name
                   (if port_info.out_of_order then order.out else order.in_) }

/-- The lambda `f` of `duplicateFromVertexToSource`; `NDEBUG` tells whether the
`assert`s are compiled out. -/
def duplicate_visitor (NDEBUG : Bool) (g : Graph) : vertex_func Data :=
  fun fuel current w =>
    let d := w.data
    let cloned_kernel := (g.deref current).clone
    if cloned_kernel = nullptr then some (.exited EXIT_FAILURE)
    else if d.kernel_map.length = 0 then
      let d_ret_val := map_insert d.kernel_map current cloned_kernel
      if NDEBUG = false ∧ d_ret_val.2 = false then some .aborted
      else some (.returned { w with data := { d with kernel_map := d_ret_val.1 } })
    else
      let d_ret_val := map_insert d.kernel_map current cloned_kernel
      if NDEBUG = false ∧ d_ret_val.2 = false then some .aborted
      else
        match lock w.locks current fuel with
        | none => none
        | some locks =>
          some (.returned
            ⟨unlock locks current,
             duplicate_ports current cloned_kernel (g.deref current).output
               { d with kernel_map := d_ret_val.1 }⟩)

/-- `GraphTools::duplicateFromVertexToSource( start )`: the returned pointer is
`some` of the `temp_map` it refers to, `none` when null. The lambda `f` is
constructed and not passed to any traversal. -/
def duplicateFromVertexToSource (NDEBUG : Bool) (g : Graph) (start : KernelPtr) :
    Outcome (Option temp_map) :=
  if NDEBUG = false ∧ start = nullptr then .aborted
  else
    let d : Data := ⟨[], [], ⟨[]⟩⟩
    let _f : vertex_func Data := duplicate_visitor NDEBUG g
    .returned (some d.temp_map)

/-- `GraphTools::duplicateFromVertexToSink( start )`. -/
def duplicateFromVertexToSink (_start : KernelPtr) : Outcome (Option temp_map) :=
  .returned none

/-- `GraphTools::__DFS( stack, visited_set, vertex_func, data )`: the body is
`assert( false )`. -/
def __DFS_vertex_func {σ : Type} (NDEBUG : Bool) (_func : vertex_func σ)
    (st : State σ) : Outcome (State σ) :=
  if NDEBUG = false then .aborted else .returned st

end GraphTools

/-! ## Specification vocabulary -/

namespace GraphTools
open raft

/-- An edge of the graph: `b` is the non-null `other_kernel` of an output port
of the kernel at `a`. -/
def Graph.succ (g : Graph) (a b : KernelPtr) : Prop :=
  b ≠ nullptr ∧ ∃ p ∈ (g.deref a).output, p.other_kernel = b

/-- The kernel `v` is the end of a path of `n` edges that starts at a source. -/
inductive PathLen (g : Graph) (srcs : List KernelPtr) : Nat → KernelPtr → Prop where
  | src {s : KernelPtr} : s ∈ srcs → PathLen g srcs 0 s
  | step {n : Nat} {u w : KernelPtr} :
      PathLen g srcs n u → Graph.succ g u w → PathLen g srcs (n + 1) w

/-- The kernel `v` is reachable from the sources by following connected output
ports. -/
def Reachable (g : Graph) (srcs : List KernelPtr) (v : KernelPtr) : Prop :=
  ∃ n, PathLen g srcs n v

/-- The number `d` is the shortest-path distance of `v` from the sources. -/
def IsDist (g : Graph) (srcs : List KernelPtr) (v : KernelPtr) (d : Nat) : Prop :=
  PathLen g srcs d v ∧ ∀ m, PathLen g srcs m v → d ≤ m

/-- A vertex visitor that returns and changes only the object behind `data`. -/
def pure_visitor {σ : Type} (f : KernelPtr → σ → σ) : vertex_func σ :=
  fun _ k w => some (.returned { w with data := f k w.data })

/-- What the port loop of the vertex `__BFS` does to the queue and the visited
set. -/
def push_children : List PortInfo → List KernelPtr → List KernelPtr →
    List KernelPtr × List KernelPtr
  | [], q, vs => (q, vs)
  | p :: rest, q, vs =>
    if p.other_kernel ≠ nullptr ∧ p.other_kernel ∉ vs then
      push_children rest (q ++ [p.other_kernel]) (vs.insert p.other_kernel)
    else push_children rest q vs

/-- The order in which a breadth-first traversal dequeues kernels, from a queue
and a visited set. -/
def bfs_order (g : Graph) : Nat → List KernelPtr → List KernelPtr → Option (List KernelPtr)
  | 0, _, _ => none
  | _ + 1, [], _ => some []
  | fuel + 1, k :: rest, vs =>
    if k = nullptr then some []
    else
      (bfs_order g fuel (push_children (g.deref k).output rest vs).1
        (push_children (g.deref k).output rest vs).2).map (fun l => k :: l)

/-- The pairs an edge visitor is called on while the port table `ports` is
enumerated: each connected port with the `PortInfo` its `other_name` resolves to
in the input table of its `other_kernel`. -/
def edge_calls (g : Graph) : List PortInfo → List (PortInfo × PortInfo)
  | [] => []
  | p :: rest =>
    if p.other_kernel ≠ nullptr then
      match getPortInfoFor (g.deref p.other_kernel).input p.other_name with
      | .ok dst => (p, dst) :: edge_calls g rest
      | .error _ => edge_calls g rest
    else edge_calls g rest

/-- Invariant of the breadth-first loop: `tr` are the kernels dequeued so far,
`q` the queue, `vs` the visited set, `lev` a level for every visited kernel. -/
structure BFSInv (g : Graph) (srcs : List KernelPtr) (lev : KernelPtr → Nat)
    (tr q vs : List KernelPtr) : Prop where
  nodup : (tr ++ q).Nodup
  visited : ∀ v, v ∈ vs ↔ v ∈ tr ∨ v ∈ q
  valid : ∀ v ∈ vs, g.valid v
  src : ∀ s ∈ srcs, s ∈ vs ∧ lev s = 0
  path : ∀ v ∈ vs, PathLen g srcs (lev v) v
  closed : ∀ u ∈ tr, ∀ w, Graph.succ g u w → w ∈ vs ∧ lev w ≤ lev u + 1
  sorted : (tr ++ q).Pairwise (fun a b => lev a ≤ lev b)
  window : ∀ a ∈ q, ∀ b ∈ q, lev b ≤ lev a + 1

/-- All output ports of the kernels of `order` are connected. -/
def AllConnected (g : Graph) (order : List KernelPtr) : Prop :=
  ∀ k ∈ order, ∀ p ∈ (g.deref k).output, p.other_kernel ≠ nullptr

/-- The input-port lookup of every connected output port of the kernels of
`order` succeeds. -/
def LookupsSucceed (g : Graph) (order : List KernelPtr) : Prop :=
  ∀ k ∈ order, ∀ p ∈ (g.deref k).output, p.other_kernel ≠ nullptr →
    ∃ dst, getPortInfoFor (g.deref p.other_kernel).input p.other_name = .ok dst

/-- A vertex visitor that appends the visited kernel to a list. -/
def record_visits : vertex_func (List KernelPtr) :=
  pure_visitor (fun k tr => tr ++ [k])

/-- An edge visitor that appends the pair it is called on to a list. -/
def record_edges : edge_func (List (PortInfo × PortInfo)) :=
  fun source dst calls => calls ++ [(source, dst)]

/-- The 3-cycle `A -> B -> C -> A`, kernels at addresses 1, 2, 3, with clones at
11, 12, 13. -/
def cycle3 : Graph :=
  ⟨[⟨"A", [⟨"out", 2, "in", false⟩], [⟨"in", 3, "out", false⟩], 11⟩,
    ⟨"B", [⟨"out", 3, "in", false⟩], [⟨"in", 1, "out", false⟩], 12⟩,
    ⟨"C", [⟨"out", 1, "in", false⟩], [⟨"in", 2, "out", false⟩], 13⟩]⟩

/-- The chain `A -> B -> C`. -/
def chain3 : Graph :=
  ⟨[⟨"A", [⟨"out", 2, "in", false⟩], [], 11⟩,
    ⟨"B", [⟨"out", 3, "in", false⟩], [⟨"in", 1, "out", false⟩], 12⟩,
    ⟨"C", [], [⟨"in", 2, "out", false⟩], 13⟩]⟩

/-- The chain `A -> B -> C` in which `A` has a further, unconnected output port
`a` that precedes its connected port `b`. -/
def dangling : Graph :=
  ⟨[⟨"A", [⟨"a", nullptr, "", false⟩, ⟨"b", 2, "in", false⟩], [], 11⟩,
    ⟨"B", [⟨"out", 3, "in", false⟩], [⟨"in", 1, "b", false⟩], 12⟩,
    ⟨"C", [], [⟨"in", 2, "out", false⟩], 13⟩]⟩

/-- The edge `A -> B` whose `other_name` names no input port of `B`. -/
def badlookup : Graph :=
  ⟨[⟨"A", [⟨"out", 2, "in", false⟩], [], 11⟩, ⟨"B", [], [], 12⟩]⟩

/-- A single kernel whose `clone()` returns `nullptr`. -/
def noclone : Graph :=
  ⟨[⟨"A", [], [], nullptr⟩]⟩

/-- The accumulator `d` of `duplicateFromVertexToSource` as constructed: empty
Identity Map, empty Unmatched-Edge Set, fresh Wiring Map. -/
def Data.init : Data := ⟨[], [], ⟨[]⟩⟩

/-- Successive calls of the lambda of `duplicateFromVertexToSource` on the
kernels of a list, every call with the same fuel; the first call that does not
return ends the sequence. -/
def visitor_calls (NDEBUG : Bool) (g : Graph) (fuel : Nat) :
    List KernelPtr → World Data → Option (Outcome (World Data))
  | [], w => some (.returned w)
  | k :: rest, w =>
    match duplicate_visitor NDEBUG g fuel k w with
    | some (.returned w1) => visitor_calls NDEBUG g fuel rest w1
    | other => other

/-- The link request the lambda records for the output port `p` of a kernel
cloned as `cloned_kernel`, when the Identity Map `kernel_map` holds a clone for
the destination of `p`. -/
def link_of (kernel_map : List (Nat × KernelPtr)) (cloned_kernel : KernelPtr)
    (p : PortInfo) : Option Link :=
  (map_find kernel_map p.other_kernel).map (fun found =>
    ⟨cloned_kernel, p.my_name, found, p.other_name,
      if p.out_of_order then order.out else order.in_⟩)

/-- The graph `A -> B`, `B -> C`, `B -> D`: kernel `B` (address 2) has the two
output ports `x` and `y`. -/
def fanout : Graph :=
  ⟨[⟨"A", [⟨"out", 2, "in", false⟩], [], 11⟩,
    ⟨"B", [⟨"x", 3, "in", false⟩, ⟨"y", 4, "in", true⟩], [⟨"in", 1, "out", false⟩], 12⟩,
    ⟨"C", [], [⟨"in", 2, "x", false⟩], 13⟩,
    ⟨"D", [], [⟨"in", 2, "y", true⟩], 14⟩]⟩

/-- What the port loop of the edge `__BFS` does to the queue and the visited set
when it runs to its end: every `other_kernel` not yet visited is pushed, the
null one included. -/
def push_dsts : List PortInfo → List KernelPtr → List KernelPtr →
    List KernelPtr × List KernelPtr
  | [], q, vs => (q, vs)
  | p :: rest, q, vs =>
    if p.other_kernel ∉ vs then
      push_dsts rest (q ++ [p.other_kernel]) (vs.insert p.other_kernel)
    else push_dsts rest q vs

/-- The queue `qe` and visited set `vse` of the edge `__BFS` agree with the
queue `q` and visited set `vs` of a traversal that never enqueues null, up to
the null pointer. -/
def AgreeUpToNull (qe vse q vs : List KernelPtr) : Prop :=
  qe.filter (fun x => decide (x ≠ nullptr)) = q ∧
    ∀ x, x ≠ nullptr → (x ∈ vse ↔ x ∈ vs)

/-- The number of addresses `0, ..., n` that are not in the visited set. -/
def unvisited (n : Nat) (vs : List KernelPtr) : Nat :=
  ((List.range (n + 1)).filter (fun x => decide (x ∉ vs))).length

/-- The kernel being enumerated: `Enumerating g func connected_error st k s` says
that the edge `__BFS` loop entered in state `st` comes, after zero or more
iterations whose port loop ran to its end, to an iteration that dequeues the
non-null kernel `k`, takes its mutex and starts the port loop of `k` in state
`s`. -/
inductive Enumerating {σ : Type} (g : Graph) (func : edge_func σ) (connected_error : Bool) :
    State σ → KernelPtr → State σ → Prop where
  | first {st : State σ} {k : KernelPtr} {rest : List KernelPtr} :
      st.queue = k :: rest → k ≠ nullptr → k ∉ st.locks →
      Enumerating g func connected_error st k
        { st with queue := rest, locks := k :: st.locks }
  | next {st st1 s : State σ} {k0 k : KernelPtr} {rest : List KernelPtr} :
      st.queue = k0 :: rest → k0 ≠ nullptr → k0 ∉ st.locks →
      edge_ports g func connected_error k0 (g.deref k0).output
        { st with queue := rest, locks := k0 :: st.locks } = .returned st1 →
      Enumerating g func connected_error { st1 with locks := unlock st1.locks k0 } k s →
      Enumerating g func connected_error st k s

/-- The graph `A -> B`, `A -> C` in which `B` has the unconnected output port `x`
and `C` the unconnected output port `y`. -/
def twonull : Graph :=
  ⟨[⟨"A", [⟨"b", 2, "in", false⟩, ⟨"c", 3, "in", false⟩], [], 11⟩,
    ⟨"B", [⟨"x", nullptr, "", false⟩], [⟨"in", 1, "b", false⟩], 12⟩,
    ⟨"C", [⟨"y", nullptr, "", false⟩], [⟨"in", 1, "c", false⟩], 13⟩]⟩

/-! ## Lemmas -/

theorem lock_free (k : KernelPtr) (fuel : Nat) : lock [] k (fuel + 1) = some [k] := by
  simp [lock]

theorem unlock_self (k : KernelPtr) : unlock [k] k = [] := by
  simp [unlock]

theorem seed_fst_aux (l : List KernelPtr) (q vs : List KernelPtr) :
    (l.foldl (fun qv k => (qv.1 ++ [k], qv.2.insert k)) (q, vs)).1 = q ++ l := by
  induction l generalizing q vs with
  | nil => simp
  | cons a l ih => simp [ih]

theorem seed_snd_aux (l : List KernelPtr) (q vs : List KernelPtr) (x : KernelPtr) :
    x ∈ (l.foldl (fun qv k => (qv.1 ++ [k], qv.2.insert k)) (q, vs)).2 ↔ x ∈ vs ∨ x ∈ l := by
  induction l generalizing q vs with
  | nil => simp
  | cons a l ih =>
    simp only [List.foldl_cons, ih, List.mem_insert_iff, List.mem_cons]
    tauto

theorem seed_fst (l : List KernelPtr) : (seed l).1 = l := by
  simpa [seed] using seed_fst_aux l [] []

theorem mem_seed_snd (l : List KernelPtr) (x : KernelPtr) : x ∈ (seed l).2 ↔ x ∈ l := by
  simpa [seed] using seed_snd_aux l [] [] x

theorem vertex_ports_eq {σ : Type} (ports : List PortInfo) (st : State σ) :
    vertex_ports ports st =
      { st with queue := (push_children ports st.queue st.visited_set).1,
                visited_set := (push_children ports st.queue st.visited_set).2 } := by
  induction ports generalizing st with
  | nil => simp [vertex_ports, push_children]
  | cons p rest ih =>
    by_cases h1 : p.other_kernel = nullptr
    · simp [vertex_ports, push_children, h1, ih]
    · by_cases h2 : p.other_kernel ∈ st.visited_set
      · simp [vertex_ports, push_children, h1, h2, ih]
      · simp [vertex_ports, push_children, h1, h2, ih]

theorem push_children_pos (p : PortInfo) (rest : List PortInfo) (q vs : List KernelPtr)
    (h : p.other_kernel ≠ nullptr ∧ p.other_kernel ∉ vs) :
    push_children (p :: rest) q vs =
      push_children rest (q ++ [p.other_kernel]) (vs.insert p.other_kernel) := by
  rw [push_children, if_pos h]

theorem push_children_neg (p : PortInfo) (rest : List PortInfo) (q vs : List KernelPtr)
    (h : ¬ (p.other_kernel ≠ nullptr ∧ p.other_kernel ∉ vs)) :
    push_children (p :: rest) q vs = push_children rest q vs := by
  rw [push_children, if_neg h]

theorem push_children_spec (ports : List PortInfo) (q vs : List KernelPtr) :
    ∃ new, (push_children ports q vs).1 = q ++ new ∧ new.Nodup ∧
      (∀ w ∈ new, w ∉ vs ∧ w ≠ nullptr ∧ ∃ p ∈ ports, p.other_kernel = w) ∧
      (∀ x, x ∈ (push_children ports q vs).2 ↔ x ∈ vs ∨ x ∈ new) ∧
      (∀ p ∈ ports, p.other_kernel ≠ nullptr →
        p.other_kernel ∈ (push_children ports q vs).2) := by
  induction ports generalizing q vs with
  | nil => exact ⟨[], by simp [push_children]⟩
  | cons p rest ih =>
    by_cases h : p.other_kernel ≠ nullptr ∧ p.other_kernel ∉ vs
    · obtain ⟨new, h1, h2, h3, h4, h5⟩ := ih (q ++ [p.other_kernel]) (vs.insert p.other_kernel)
      rw [push_children_pos p rest q vs h]
      refine ⟨p.other_kernel :: new, ?_, ?_, ?_, ?_, ?_⟩
      · rw [h1, List.append_assoc]; rfl
      · refine List.nodup_cons.mpr ⟨fun hm => ?_, h2⟩
        exact (h3 _ hm).1 (List.mem_insert_self _ _)
      · intro w hw
        rcases List.mem_cons.mp hw with rfl | hw
        · exact ⟨h.2, h.1, p, List.mem_cons_self _ _, rfl⟩
        · obtain ⟨a, b, p', hp', e⟩ := h3 w hw
          exact ⟨fun hv => a (List.mem_insert_of_mem hv), b, p', List.mem_cons_of_mem _ hp', e⟩
      · intro x
        rw [h4, List.mem_insert_iff, List.mem_cons]
        tauto
      · intro p' hp' hn
        rcases List.mem_cons.mp hp' with rfl | hp'
        · exact (h4 _).mpr (Or.inl (List.mem_insert_self _ _))
        · exact h5 p' hp' hn
    · obtain ⟨new, h1, h2, h3, h4, h5⟩ := ih q vs
      rw [push_children_neg p rest q vs h]
      refine ⟨new, h1, h2, ?_, h4, ?_⟩
      · intro w hw
        obtain ⟨a, b, p', hp', e⟩ := h3 w hw
        exact ⟨a, b, p', List.mem_cons_of_mem _ hp', e⟩
      · intro p' hp' hn
        rcases List.mem_cons.mp hp' with rfl | hp'
        · have hv : p'.other_kernel ∈ vs := by
            by_contra hc
            exact h ⟨hn, hc⟩
          exact (h4 _).mpr (Or.inl hv)
        · exact h5 p' hp' hn

theorem deref_mem (g : Graph) (k : KernelPtr) (h : g.valid k) : g.deref k ∈ g.kernels := by
  obtain ⟨h1, h2⟩ := h
  have hk : ¬ k = nullptr := by unfold KernelPtr nullptr at *; omega
  have hlt : k - 1 < g.kernels.length := by unfold KernelPtr at *; omega
  rw [Graph.deref, if_neg hk, List.getD_eq_getElem _ _ hlt]
  exact List.getElem_mem _

theorem length_le_of_valid (g : Graph) (l : List KernelPtr) (hnd : l.Nodup)
    (hv : ∀ v ∈ l, g.valid v) : l.length ≤ g.kernels.length := by
  have hsub : l ⊆ List.range' 1 g.kernels.length := by
    intro v hvm
    have h := hv v hvm
    unfold Graph.valid at h
    rw [List.mem_range'_1]
    unfold KernelPtr at *
    omega
  have h := (List.subperm_of_subset hnd hsub).length_le
  simpa using h

theorem BFSInv.init (g : Graph) (srcs : List KernelPtr) (hnd : srcs.Nodup)
    (hv : ∀ s ∈ srcs, g.valid s) :
    BFSInv g srcs (fun _ => 0) [] (seed srcs).1 (seed srcs).2 := by
  rw [seed_fst]
  refine ⟨by simpa using hnd, ?_, ?_, ?_, ?_, ?_, ?_, ?_⟩
  · intro v; simp [mem_seed_snd]
  · intro v hvm; exact hv v ((mem_seed_snd _ _).mp hvm)
  · intro s hs; exact ⟨(mem_seed_snd _ _).mpr hs, rfl⟩
  · intro v hvm; exact PathLen.src ((mem_seed_snd _ _).mp hvm)
  · intro u hu; simp at hu
  · simp [List.pairwise_iff_forall_sublist]
  · intro a _ b _; simp

theorem BFSInv.step {g : Graph} {srcs : List KernelPtr} {lev : KernelPtr → Nat}
    {tr rest vs : List KernelPtr} {k : KernelPtr} (hwf : g.WellFormed)
    (inv : BFSInv g srcs lev tr (k :: rest) vs) :
    ∃ lev', BFSInv g srcs lev' (tr ++ [k])
      (push_children (g.deref k).output rest vs).1
      (push_children (g.deref k).output rest vs).2 := by
  obtain ⟨new, h1, h2, h3, h4, h5⟩ := push_children_spec (g.deref k).output rest vs
  have hk_vs : k ∈ vs := (inv.visited k).mpr (Or.inr (List.mem_cons_self _ _))
  have hold : ∀ x, x ∈ tr ++ k :: rest → x ∈ vs := by
    intro x hx
    exact (inv.visited x).mpr (List.mem_append.mp hx)
  have hlev_old : ∀ x, x ∈ vs → (if x ∈ new then lev k + 1 else lev x) = lev x :=
    fun x hx => if_neg (fun hn => (h3 x hn).1 hx)
  have hlev_new : ∀ x, x ∈ new → (if x ∈ new then lev k + 1 else lev x) = lev k + 1 :=
    fun x hx => if_pos hx
  have hle_k : ∀ x, x ∈ tr ++ k :: rest → lev x ≤ lev k + 1 := by
    intro x hx
    rcases List.mem_append.mp hx with hx | hx
    · have := (List.pairwise_append.mp inv.sorted).2.2 x hx k (List.mem_cons_self _ _)
      omega
    · exact inv.window k (List.mem_cons_self _ _) x hx
  have hk_le : ∀ x, x ∈ rest → lev k ≤ lev x := by
    intro x hx
    have := (List.pairwise_append.mp inv.sorted).2.1
    exact (List.pairwise_cons.mp this).1 x hx
  have e : (tr ++ [k]) ++ (rest ++ new) = (tr ++ k :: rest) ++ new := by simp
  refine ⟨fun x => if x ∈ new then lev k + 1 else lev x, ?_⟩
  rw [h1]
  refine ⟨?_, ?_, ?_, ?_, ?_, ?_, ?_, ?_⟩
  · rw [e]
    refine List.nodup_append.mpr ⟨inv.nodup, h2, ?_⟩
    intro a ha hb
    exact (h3 a hb).1 (hold a ha)
  · intro v
    rw [h4, inv.visited]
    simp only [List.mem_append, List.mem_cons, List.mem_singleton, List.not_mem_nil, or_false]
    tauto
  · intro v hv
    rcases (h4 v).mp hv with hv | hv
    · exact inv.valid v hv
    · obtain ⟨_, hne, p, hp, rfl⟩ := h3 v hv
      have hle := hwf _ (deref_mem g k (inv.valid k hk_vs)) p hp
      exact ⟨Nat.pos_of_ne_zero hne, hle⟩
  · intro s hs
    have := inv.src s hs
    refine ⟨(h4 s).mpr (Or.inl this.1), ?_⟩
    show (if s ∈ new then lev k + 1 else lev s) = 0
    rw [hlev_old s this.1]; exact this.2
  · intro v hv
    show PathLen g srcs (if v ∈ new then lev k + 1 else lev v) v
    rcases (h4 v).mp hv with hv | hv
    · rw [hlev_old v hv]; exact inv.path v hv
    · rw [hlev_new v hv]
      obtain ⟨_, hne, p, hp, rfl⟩ := h3 v hv
      exact PathLen.step (inv.path k hk_vs) ⟨hne, p, hp, rfl⟩
  · intro u hu w hw
    show w ∈ _ ∧ (if w ∈ new then lev k + 1 else lev w) ≤ (if u ∈ new then lev k + 1 else lev u) + 1
    rcases List.mem_append.mp hu with hu | hu
    · have hu_vs : u ∈ vs := (inv.visited u).mpr (Or.inl hu)
      obtain ⟨a, b⟩ := inv.closed u hu w hw
      rw [hlev_old u hu_vs, hlev_old w a]
      exact ⟨(h4 w).mpr (Or.inl a), b⟩
    · have hu : u = k := by simpa using hu
      subst hu
      obtain ⟨hne, p, hp, rfl⟩ := hw
      have hmem := h5 p hp hne
      refine ⟨hmem, ?_⟩
      rw [hlev_old u hk_vs]
      rcases (h4 _).mp hmem with hv | hv
      · rw [hlev_old _ hv]
        exact hle_k _ (List.mem_append.mpr ((inv.visited _).mp hv))
      · rw [hlev_new _ hv]
  · rw [e]
    refine List.pairwise_append.mpr ⟨?_, ?_, ?_⟩
    · refine List.Pairwise.imp_of_mem ?_ inv.sorted
      intro a b ha hb hab
      show (if a ∈ new then lev k + 1 else lev a) ≤ (if b ∈ new then lev k + 1 else lev b)
      rw [hlev_old a (hold a ha), hlev_old b (hold b hb)]; exact hab
    · rw [List.pairwise_iff_forall_sublist]
      intro a b hab
      have ha : a ∈ new := hab.subset (List.mem_cons_self _ _)
      have hb : b ∈ new := hab.subset (List.mem_cons_of_mem _ (List.mem_singleton_self _))
      show (if a ∈ new then lev k + 1 else lev a) ≤ (if b ∈ new then lev k + 1 else lev b)
      rw [hlev_new a ha, hlev_new b hb]
    · intro a ha b hb
      show (if a ∈ new then lev k + 1 else lev a) ≤ (if b ∈ new then lev k + 1 else lev b)
      rw [hlev_old a (hold a ha), hlev_new b hb]
      exact hle_k a ha
  · intro a ha b hb
    show (if b ∈ new then lev k + 1 else lev b) ≤ (if a ∈ new then lev k + 1 else lev a) + 1
    have hrest_vs : ∀ x, x ∈ rest → x ∈ vs := fun x hx =>
      (inv.visited x).mpr (Or.inr (List.mem_cons_of_mem _ hx))
    rcases List.mem_append.mp ha with ha | ha <;> rcases List.mem_append.mp hb with hb | hb
    · rw [hlev_old a (hrest_vs a ha), hlev_old b (hrest_vs b hb)]
      exact inv.window a (List.mem_cons_of_mem _ ha) b (List.mem_cons_of_mem _ hb)
    · rw [hlev_old a (hrest_vs a ha), hlev_new b hb]
      have := hk_le a ha
      omega
    · rw [hlev_new a ha, hlev_old b (hrest_vs b hb)]
      have := inv.window k (List.mem_cons_self _ _) b (List.mem_cons_of_mem _ hb)
      omega
    · rw [hlev_new a ha, hlev_new b hb]
      omega

theorem valid_ne_nullptr {g : Graph} {k : KernelPtr} (h : g.valid k) : ¬ k = nullptr := by
  unfold Graph.valid KernelPtr nullptr at *
  omega

theorem bfs_order_total (g : Graph) (hwf : g.WellFormed) (srcs : List KernelPtr) :
    ∀ (m : Nat) (lev : KernelPtr → Nat) (tr q vs : List KernelPtr),
      BFSInv g srcs lev tr q vs → g.kernels.length - tr.length ≤ m →
      ∃ fuel order vs' lev',
        bfs_order g fuel q vs = some order ∧ BFSInv g srcs lev' (tr ++ order) [] vs' := by
  intro m
  induction m with
  | zero =>
    intro lev tr q vs inv hm
    cases q with
    | nil => exact ⟨1, [], vs, lev, rfl, by simpa using inv⟩
    | cons k rest =>
      exfalso
      have h := length_le_of_valid g (tr ++ k :: rest) inv.nodup
        (fun v hv => inv.valid v ((inv.visited v).mpr (List.mem_append.mp hv)))
      simp only [List.length_append, List.length_cons] at h
      omega
  | succ m ih =>
    intro lev tr q vs inv hm
    cases q with
    | nil => exact ⟨1, [], vs, lev, rfl, by simpa using inv⟩
    | cons k rest =>
      have h := length_le_of_valid g (tr ++ k :: rest) inv.nodup
        (fun v hv => inv.valid v ((inv.visited v).mpr (List.mem_append.mp hv)))
      simp only [List.length_append, List.length_cons] at h
      have hk : ¬ k = nullptr :=
        valid_ne_nullptr (inv.valid k ((inv.visited k).mpr (Or.inr (List.mem_cons_self _ _))))
      obtain ⟨lev1, inv1⟩ := BFSInv.step hwf inv
      obtain ⟨fuel, order, vs', lev', ho, inv'⟩ := ih lev1 _ _ _ inv1
        (by simp only [List.length_append, List.length_singleton]; omega)
      refine ⟨fuel + 1, k :: order, vs', lev', ?_, by simpa using inv'⟩
      rw [bfs_order, if_neg hk, ho]
      rfl

theorem BFSInv.final {g : Graph} {srcs : List KernelPtr} {lev : KernelPtr → Nat}
    {tr vs : List KernelPtr} (inv : BFSInv g srcs lev tr [] vs) :
    tr.Nodup ∧ (∀ v, v ∈ tr ↔ Reachable g srcs v) ∧
      tr.Pairwise (fun a b => lev a ≤ lev b) ∧ ∀ v ∈ tr, IsDist g srcs v (lev v) := by
  have hmem : ∀ v, v ∈ vs ↔ v ∈ tr := by simpa using inv.visited
  have key : ∀ n v, PathLen g srcs n v → v ∈ tr ∧ lev v ≤ n := by
    intro n v h
    induction h with
    | src hs =>
      obtain ⟨a, b⟩ := inv.src _ hs
      exact ⟨(hmem _).mp a, by omega⟩
    | step _ hs ih =>
      obtain ⟨a, b⟩ := inv.closed _ ih.1 _ hs
      exact ⟨(hmem _).mp a, by omega⟩
  refine ⟨by simpa using inv.nodup, ?_, by simpa using inv.sorted, ?_⟩
  · intro v
    constructor
    · intro hv
      exact ⟨lev v, inv.path v ((hmem v).mpr hv)⟩
    · rintro ⟨n, hn⟩
      exact (key n v hn).1
  · intro v hv
    exact ⟨inv.path v ((hmem v).mpr hv), fun m hm => (key m v hm).2⟩

theorem bfs_order_cons {g : Graph} {fuel : Nat} {k : KernelPtr} {rest vs order : List KernelPtr}
    (hk : ¬ k = nullptr) (h : bfs_order g (fuel + 1) (k :: rest) vs = some order) :
    ∃ order', order = k :: order' ∧
      bfs_order g fuel (push_children (g.deref k).output rest vs).1
        (push_children (g.deref k).output rest vs).2 = some order' := by
  rw [bfs_order, if_neg hk] at h
  cases hb : bfs_order g fuel (push_children (g.deref k).output rest vs).1
      (push_children (g.deref k).output rest vs).2 with
  | none => rw [hb] at h; simp at h
  | some o =>
    rw [hb] at h
    simp only [Option.map_some', Option.some.injEq] at h
    exact ⟨o, h.symm, rfl⟩

theorem bfs_order_succ (g : Graph) :
    ∀ (fuel : Nat) (q vs order : List KernelPtr),
      bfs_order g fuel q vs = some order → bfs_order g (fuel + 1) q vs = some order := by
  intro fuel
  induction fuel with
  | zero => intro q vs order h; simp [bfs_order] at h
  | succ fuel ih =>
    intro q vs order h
    cases q with
    | nil => simpa [bfs_order] using h
    | cons k rest =>
      by_cases hk : k = nullptr
      · simpa [bfs_order, hk] using h
      · obtain ⟨order', rfl, ho⟩ := bfs_order_cons hk h
        rw [bfs_order, if_neg hk, ih _ _ _ ho]
        rfl

theorem bfs_order_mono (g : Graph) {fuel fuel' : Nat} {q vs order : List KernelPtr}
    (h : bfs_order g fuel q vs = some order) (hle : fuel ≤ fuel') :
    bfs_order g fuel' q vs = some order := by
  induction hle with
  | refl => exact h
  | step _ ih => exact bfs_order_succ g _ _ _ _ ih

theorem bfs_order_spec (g : Graph) (srcs : List KernelPtr) (hwf : g.WellFormed)
    (hnd : srcs.Nodup) (hv : ∀ s ∈ srcs, g.valid s) :
    ∃ (N : Nat) (order : List KernelPtr) (lev : KernelPtr → Nat),
      (∀ fuel, N ≤ fuel → bfs_order g fuel (seed srcs).1 (seed srcs).2 = some order) ∧
      order.Nodup ∧ (∀ v, v ∈ order ↔ Reachable g srcs v) ∧
      order.Pairwise (fun a b => lev a ≤ lev b) ∧ ∀ v ∈ order, IsDist g srcs v (lev v) := by
  obtain ⟨fuel, order, vs', lev', ho, inv'⟩ :=
    bfs_order_total g hwf srcs _ _ _ _ _ (BFSInv.init g srcs hnd hv) (le_refl _)
  exact ⟨fuel, order, lev', fun fuel' hle => bfs_order_mono g ho hle,
    by simpa using inv'.final⟩

theorem vertex_link {σ : Type} (g : Graph) (f : KernelPtr → σ → σ) :
    ∀ (fuel : Nat) (q vs : List KernelPtr) (d : σ) (order : List KernelPtr),
      bfs_order g fuel q vs = some order →
      ∃ st, __BFS_vertex_func g (pure_visitor f) fuel ⟨q, vs, [], d⟩ = some (.returned st) ∧
        st.locks = [] ∧ st.data = order.foldl (fun d k => f k d) d := by
  intro fuel
  induction fuel with
  | zero => intro q vs d order h; simp [bfs_order] at h
  | succ fuel ih =>
    intro q vs d order h
    cases q with
    | nil =>
      simp only [bfs_order, Option.some.injEq] at h
      subst h
      exact ⟨⟨[], vs, [], d⟩, by simp [__BFS_vertex_func], rfl, rfl⟩
    | cons k rest =>
      by_cases hk : k = nullptr
      · simp only [bfs_order, hk, if_true, Option.some.injEq] at h
        subst h
        exact ⟨⟨k :: rest, vs, [], d⟩, by simp [__BFS_vertex_func, hk], rfl, rfl⟩
      · obtain ⟨order', rfl, ho⟩ := bfs_order_cons hk h
        obtain ⟨st, h1, h2, h3⟩ := ih _ _ (f k d) order' ho
        refine ⟨st, ?_, h2, by simpa using h3⟩
        rw [__BFS_vertex_func]
        simp only [if_neg hk, lock_free, pure_visitor, vertex_ports_eq, unlock_self]
        exact h1

theorem visit_dst_locks {σ : Type} (p : PortInfo) (st : State σ) :
    (visit_dst p st).locks = st.locks := by
  unfold visit_dst
  split <;> rfl

theorem edge_ports_locks {σ : Type} (g : Graph) (f : edge_func σ) (ce : Bool) (k : KernelPtr) :
    ∀ (ports : List PortInfo) (st : State σ),
      (∀ st', edge_ports g f ce k ports st = .returned st' → st'.locks = st.locks) ∧
      (∀ msg st', edge_ports g f ce k ports st = .threw (.PortException msg) st' →
        st'.locks = unlock st.locks k) := by
  intro ports
  induction ports with
  | nil =>
    intro st
    constructor
    · intro st' h
      simp only [edge_ports, Outcome.returned.injEq] at h
      rw [← h]
    · intro msg st' h
      simp [edge_ports] at h
  | cons p rest ih =>
    intro st
    by_cases hp : p.other_kernel = nullptr
    · cases ce with
      | true =>
        constructor
        · intro st' h
          simp [edge_ports, hp] at h
        · intro msg st' h
          simp only [edge_ports, hp, ne_eq, not_true_eq_false, if_false, if_true,
            Outcome.threw.injEq] at h
          rw [← h.2]
      | false =>
        have e : edge_ports g f false k (p :: rest) st =
            edge_ports g f false k rest (visit_dst p st) := by
          simp [edge_ports, hp]
        rw [e]
        have := ih (visit_dst p st)
        rw [visit_dst_locks] at this
        exact this
    · cases hl : getPortInfoFor (g.deref p.other_kernel).input p.other_name with
      | error e =>
        have e1 : edge_ports g f ce k (p :: rest) st = .threw e st := by
          simp [edge_ports, hp, hl]
        rw [e1]
        constructor
        · intro st' h; simp at h
        · intro msg st' h
          exfalso
          simp only [Outcome.threw.injEq] at h
          have h1 := h.1
          subst h1
          unfold getPortInfoFor at hl
          split at hl <;> simp at hl
      | ok dst =>
        have e1 : edge_ports g f ce k (p :: rest) st =
            edge_ports g f ce k rest (visit_dst p { st with data := f p dst st.data }) := by
          simp [edge_ports, hp, hl]
        rw [e1]
        have := ih (visit_dst p { st with data := f p dst st.data })
        rw [visit_dst_locks] at this
        exact this

theorem edge_ports_connected {σ : Type} (g : Graph) (f : edge_func σ) (ce : Bool)
    (k : KernelPtr) :
    ∀ (ports : List PortInfo) (st : State σ),
      (∀ p ∈ ports, p.other_kernel ≠ nullptr ∧
        ∃ dst, getPortInfoFor (g.deref p.other_kernel).input p.other_name = .ok dst) →
      edge_ports g f ce k ports st = .returned
        { st with queue := (push_children ports st.queue st.visited_set).1,
                  visited_set := (push_children ports st.queue st.visited_set).2,
                  data := (edge_calls g ports).foldl (fun d e => f e.1 e.2 d) st.data } := by
  intro ports
  induction ports with
  | nil => intro st _; simp [edge_ports, push_children, edge_calls]
  | cons p rest ih =>
    intro st h
    obtain ⟨hne, dst, hl⟩ := h p (List.mem_cons_self _ _)
    have hrest := fun q hq => h q (List.mem_cons_of_mem _ hq)
    have e1 : edge_ports g f ce k (p :: rest) st =
        edge_ports g f ce k rest (visit_dst p { st with data := f p dst st.data }) := by
      simp [edge_ports, hne, hl]
    have e2 : edge_calls g (p :: rest) = (p, dst) :: edge_calls g rest := by
      simp [edge_calls, hne, hl]
    rw [e1, ih _ hrest, e2]
    by_cases hv : p.other_kernel ∈ st.visited_set
    · have hc : ¬ (p.other_kernel ≠ nullptr ∧ p.other_kernel ∉ st.visited_set) :=
        fun c => c.2 hv
      rw [push_children_neg _ _ _ _ hc]
      simp [visit_dst, hv]
    · rw [push_children_pos _ _ _ _ ⟨hne, hv⟩]
      simp [visit_dst, hv]

theorem edge_ports_unconnected {σ : Type} (g : Graph) (f : edge_func σ) (k : KernelPtr) :
    ∀ (ports : List PortInfo) (st : State σ),
      (∀ p ∈ ports, p.other_kernel ≠ nullptr →
        ∃ dst, getPortInfoFor (g.deref p.other_kernel).input p.other_name = .ok dst) →
      (∃ p ∈ ports, p.other_kernel = nullptr) →
      ∃ msg st', edge_ports g f true k ports st = .threw (.PortException msg) st' := by
  intro ports
  induction ports with
  | nil => intro st _ h; simp at h
  | cons p rest ih =>
    intro st h hex
    by_cases hp : p.other_kernel = nullptr
    · exact ⟨unconnectedMessage (g.deref k) p, { st with locks := unlock st.locks k },
        by simp [edge_ports, hp]⟩
    · obtain ⟨dst, hl⟩ := h p (List.mem_cons_self _ _) hp
      have e1 : edge_ports g f true k (p :: rest) st =
          edge_ports g f true k rest (visit_dst p { st with data := f p dst st.data }) := by
        simp [edge_ports, hp, hl]
      rw [e1]
      apply ih _ (fun q hq => h q (List.mem_cons_of_mem _ hq))
      obtain ⟨q, hq, hq0⟩ := hex
      rcases List.mem_cons.mp hq with rfl | hq
      · exact absurd hq0 hp
      · exact ⟨q, hq, hq0⟩

theorem edge_link_connected {σ : Type} (g : Graph) (f : edge_func σ) (ce : Bool) :
    ∀ (fuel : Nat) (q vs : List KernelPtr) (d : σ) (order : List KernelPtr),
      bfs_order g fuel q vs = some order → AllConnected g order → LookupsSucceed g order →
      ∃ st, __BFS_edge_func g f ce fuel ⟨q, vs, [], d⟩ = some (.returned st) ∧
        st.locks = [] ∧
        st.data = (order.flatMap (fun k => edge_calls g (g.deref k).output)).foldl
          (fun d e => f e.1 e.2 d) d := by
  intro fuel
  induction fuel with
  | zero => intro q vs d order h; simp [bfs_order] at h
  | succ fuel ih =>
    intro q vs d order h hc hl
    cases q with
    | nil =>
      simp only [bfs_order, Option.some.injEq] at h
      subst h
      exact ⟨⟨[], vs, [], d⟩, by simp [__BFS_edge_func], rfl, rfl⟩
    | cons k rest =>
      by_cases hk : k = nullptr
      · simp only [bfs_order, hk, if_true, Option.some.injEq] at h
        subst h
        exact ⟨⟨rest, vs, [], d⟩, by simp [__BFS_edge_func, hk], rfl, rfl⟩
      · obtain ⟨order', rfl, ho⟩ := bfs_order_cons hk h
        have hports : ∀ p ∈ (g.deref k).output, p.other_kernel ≠ nullptr ∧
            ∃ dst, getPortInfoFor (g.deref p.other_kernel).input p.other_name = .ok dst :=
          fun p hp => ⟨hc k (List.mem_cons_self _ _) p hp,
            hl k (List.mem_cons_self _ _) p hp (hc k (List.mem_cons_self _ _) p hp)⟩
        obtain ⟨st, h1, h2, h3⟩ := ih _ _
          ((edge_calls g (g.deref k).output).foldl (fun d e => f e.1 e.2 d) d) order' ho
          (fun a ha => hc a (List.mem_cons_of_mem _ ha))
          (fun a ha => hl a (List.mem_cons_of_mem _ ha))
        refine ⟨st, ?_, h2, by simpa using h3⟩
        rw [__BFS_edge_func]
        simp only [if_neg hk, lock_free, edge_ports_connected g f ce k _ _ hports, unlock_self]
        exact h1

theorem edge_link_fatal {σ : Type} (g : Graph) (f : edge_func σ) :
    ∀ (fuel : Nat) (q vs : List KernelPtr) (d : σ) (order : List KernelPtr),
      bfs_order g fuel q vs = some order → LookupsSucceed g order → ¬ AllConnected g order →
      ∃ msg st, __BFS_edge_func g f true fuel ⟨q, vs, [], d⟩ =
        some (.threw (.PortException msg) st) := by
  intro fuel
  induction fuel with
  | zero => intro q vs d order h; simp [bfs_order] at h
  | succ fuel ih =>
    intro q vs d order h hl hc
    cases q with
    | nil =>
      simp only [bfs_order, Option.some.injEq] at h
      subst h
      exact absurd (fun k hk => by simp at hk) hc
    | cons k rest =>
      by_cases hk : k = nullptr
      · simp only [bfs_order, hk, if_true, Option.some.injEq] at h
        subst h
        exact absurd (fun k hk => by simp at hk) hc
      · obtain ⟨order', rfl, ho⟩ := bfs_order_cons hk h
        by_cases hkc : ∀ p ∈ (g.deref k).output, p.other_kernel ≠ nullptr
        · have hports : ∀ p ∈ (g.deref k).output, p.other_kernel ≠ nullptr ∧
              ∃ dst, getPortInfoFor (g.deref p.other_kernel).input p.other_name = .ok dst :=
            fun p hp => ⟨hkc p hp, hl k (List.mem_cons_self _ _) p hp (hkc p hp)⟩
          have hc' : ¬ AllConnected g order' := by
            intro hall
            apply hc
            intro a ha
            rcases List.mem_cons.mp ha with rfl | ha
            · exact hkc
            · exact hall a ha
          obtain ⟨msg, st, h1⟩ := ih _ _
            ((edge_calls g (g.deref k).output).foldl (fun d e => f e.1 e.2 d) d) order' ho
            (fun a ha => hl a (List.mem_cons_of_mem _ ha)) hc'
          refine ⟨msg, st, ?_⟩
          rw [__BFS_edge_func]
          simp only [if_neg hk, lock_free, edge_ports_connected g f true k _ _ hports,
            unlock_self]
          exact h1
        · have hex : ∃ p ∈ (g.deref k).output, p.other_kernel = nullptr := by
            by_contra hcon
            apply hkc
            intro p hp hp0
            exact hcon ⟨p, hp, hp0⟩
          obtain ⟨msg, st, h1⟩ := edge_ports_unconnected g f k (g.deref k).output
            ⟨rest, vs, [k], d⟩ (hl k (List.mem_cons_self _ _)) hex
          refine ⟨msg, st, ?_⟩
          rw [__BFS_edge_func]
          simp only [if_neg hk, lock_free, h1]

theorem foldl_snoc (l acc : List KernelPtr) :
    l.foldl (fun d k => d ++ [k]) acc = acc ++ l := by
  induction l generalizing acc with
  | nil => simp
  | cons a l ih => simp [ih]

theorem nodup_of_set {l : List KernelPtr} (h : l.Pairwise (fun a b => a < b)) : l.Nodup :=
  List.Pairwise.imp (fun hab => Nat.ne_of_lt hab) h

theorem IsDist.unique {g : Graph} {srcs : List KernelPtr} {v : KernelPtr} {d d' : Nat}
    (h : IsDist g srcs v d) (h' : IsDist g srcs v d') : d = d' :=
  Nat.le_antisymm (h.2 _ h'.1) (h'.2 _ h.1)

theorem edge_calls_fst (g : Graph) :
    ∀ ports : List PortInfo,
      (∀ p ∈ ports, p.other_kernel ≠ nullptr ∧
        ∃ dst, getPortInfoFor (g.deref p.other_kernel).input p.other_name = .ok dst) →
      (edge_calls g ports).map Prod.fst = ports := by
  intro ports
  induction ports with
  | nil => intro _; rfl
  | cons p rest ih =>
    intro h
    obtain ⟨hne, dst, hl⟩ := h p (List.mem_cons_self _ _)
    have e2 : edge_calls g (p :: rest) = (p, dst) :: edge_calls g rest := by
      simp [edge_calls, hne, hl]
    rw [e2, List.map_cons, ih (fun q hq => h q (List.mem_cons_of_mem _ hq))]

theorem edge_calls_snd (g : Graph) :
    ∀ ports : List PortInfo, ∀ e ∈ edge_calls g ports,
      e.1 ∈ ports ∧ e.1.other_kernel ≠ nullptr ∧
      getPortInfoFor (g.deref e.1.other_kernel).input e.1.other_name = .ok e.2 := by
  intro ports
  induction ports with
  | nil => intro e he; simp [edge_calls] at he
  | cons p rest ih =>
    intro e he
    have hrest : e ∈ edge_calls g rest → e.1 ∈ p :: rest ∧ e.1.other_kernel ≠ nullptr ∧
        getPortInfoFor (g.deref e.1.other_kernel).input e.1.other_name = .ok e.2 := by
      intro h
      obtain ⟨a, b⟩ := ih e h
      exact ⟨List.mem_cons_of_mem _ a, b⟩
    by_cases hne : p.other_kernel ≠ nullptr
    · cases hl : getPortInfoFor (g.deref p.other_kernel).input p.other_name with
      | error x =>
        rw [edge_calls, if_pos hne, hl] at he
        exact hrest he
      | ok dst =>
        rw [edge_calls, if_pos hne, hl] at he
        rcases List.mem_cons.mp he with rfl | he
        · exact ⟨List.mem_cons_self _ _, hne, hl⟩
        · exact hrest he
    · rw [edge_calls, if_neg hne] at he
      exact hrest he

theorem dangling_lookups (v : KernelPtr) :
    ∀ p ∈ (dangling.deref v).output, p.other_kernel ≠ nullptr →
      ∃ dst, getPortInfoFor (dangling.deref p.other_kernel).input p.other_name = .ok dst := by
  match v with
  | 0 => simp [Graph.deref, kernel.empty]
  | 1 => simp [Graph.deref, dangling, getPortInfoFor]
  | 2 => simp [Graph.deref, dangling, getPortInfoFor]
  | 3 => simp [Graph.deref, dangling]
  | n + 4 => simp [Graph.deref, dangling, kernel.empty]

theorem cycle3_lookups (v : KernelPtr) :
    ∀ p ∈ (cycle3.deref v).output, p.other_kernel ≠ nullptr ∧
      ∃ dst, getPortInfoFor (cycle3.deref p.other_kernel).input p.other_name = .ok dst := by
  match v with
  | 0 => simp [Graph.deref, kernel.empty]
  | 1 => simp [Graph.deref, cycle3, getPortInfoFor]
  | 2 => simp [Graph.deref, cycle3, getPortInfoFor]
  | 3 => simp [Graph.deref, cycle3, getPortInfoFor]
  | n + 4 => simp [Graph.deref, cycle3, kernel.empty]

theorem lock_held {locks : List KernelPtr} {k : KernelPtr} (h : k ∈ locks) :
    ∀ fuel, lock locks k fuel = none := by
  intro fuel
  induction fuel with
  | zero => rfl
  | succ n ih => rw [lock, if_pos h, ih]

theorem lock_not_held {locks : List KernelPtr} {k : KernelPtr} (h : k ∉ locks) (fuel : Nat) :
    lock locks k (fuel + 1) = some (k :: locks) := by
  rw [lock, if_neg h]

theorem unlock_cons_self (locks : List KernelPtr) (k : KernelPtr) :
    unlock (k :: locks) k = locks := by
  simp [unlock]

theorem map_insert_new {β : Type} {m : List (Nat × β)} {key : Nat} (value : β)
    (h : map_find m key = none) : map_insert m key value = (m ++ [(key, value)], true) := by
  unfold map_find at h
  simp [map_insert, h]

theorem duplicate_ports_kernel_map (current cloned_kernel : KernelPtr) :
    ∀ (ports : List PortInfo) (d : Data),
      (duplicate_ports current cloned_kernel ports d).kernel_map = d.kernel_map := by
  intro ports
  induction ports with
  | nil => intro d; rfl
  | cons p rest ih =>
    intro d
    cases h : map_find d.kernel_map p.other_kernel with
    | none => simp only [duplicate_ports, h]; rw [ih]
    | some found => simp only [duplicate_ports, h]; rw [ih]

theorem duplicate_ports_links (current cloned_kernel : KernelPtr) :
    ∀ (ports : List PortInfo) (d : Data),
      (duplicate_ports current cloned_kernel ports d).temp_map.links =
        d.temp_map.links ++ ports.filterMap (link_of d.kernel_map cloned_kernel) := by
  intro ports
  induction ports with
  | nil => intro d; simp [duplicate_ports]
  | cons p rest ih =>
    intro d
    cases h : map_find d.kernel_map p.other_kernel with
    | none =>
      simp only [duplicate_ports, h]
      rw [ih]
      simp [link_of, h]
    | some found =>
      simp only [duplicate_ports, h]
      rw [ih]
      simp [link_of, h, temp_map.link]

theorem duplicate_visitor_first (NDEBUG : Bool) (g : Graph) (fuel : Nat) (current : KernelPtr)
    (w : World Data) (hc : (g.deref current).clone ≠ nullptr)
    (hkm : w.data.kernel_map = []) :
    duplicate_visitor NDEBUG g fuel current w =
      some (.returned { w with data :=
        { w.data with kernel_map := [(current, (g.deref current).clone)] } }) := by
  simp [duplicate_visitor, hc, hkm, map_insert]

theorem duplicate_visitor_later (NDEBUG : Bool) (g : Graph) (fuel : Nat) (current : KernelPtr)
    (w : World Data) (hc : (g.deref current).clone ≠ nullptr)
    (hkm : w.data.kernel_map ≠ [])
    (hins : NDEBUG = true ∨ map_find w.data.kernel_map current = none)
    (hfree : current ∉ w.locks) :
    duplicate_visitor NDEBUG g (fuel + 1) current w =
      some (.returned ⟨w.locks,
        duplicate_ports current (g.deref current).clone (g.deref current).output
          { w.data with kernel_map :=
              (map_insert w.data.kernel_map current (g.deref current).clone).1 }⟩) := by
  have hlen : ¬ w.data.kernel_map.length = 0 := by
    intro h
    exact hkm (List.length_eq_zero.mp h)
  have hass : ¬ (NDEBUG = false ∧
      (map_insert w.data.kernel_map current (g.deref current).clone).2 = false) := by
    rintro ⟨h1, h2⟩
    rcases hins with h | h
    · rw [h] at h1
      exact Bool.noConfusion h1
    · rw [map_insert_new _ h] at h2
      exact Bool.noConfusion h2
  unfold duplicate_visitor
  simp only [if_neg hc, if_neg hlen, if_neg hass, lock_not_held hfree, unlock_cons_self]

theorem map_find_mem_values {β : Type} :
    ∀ (m : List (Nat × β)) (key : Nat) (v : β),
      map_find m key = some v → v ∈ m.map Prod.snd := by
  intro m
  induction m with
  | nil => intro key v h; simp [map_find] at h
  | cons e rest ih =>
    intro key v h
    obtain ⟨a, b⟩ := e
    unfold map_find at h ih
    by_cases hk : key = a
    · subst hk
      simp only [List.lookup_cons, beq_self_eq_true, Option.some.injEq] at h
      subst h
      simp
    · have hb : (key == a) = false := by simpa using hk
      simp only [List.lookup_cons, hb] at h
      exact List.mem_cons_of_mem _ (ih key v h)

theorem map_find_none_not_key {β : Type} :
    ∀ (m : List (Nat × β)) (key : Nat),
      map_find m key = none ↔ key ∉ m.map Prod.fst := by
  intro m
  induction m with
  | nil => intro key; simp [map_find]
  | cons e rest ih =>
    intro key
    obtain ⟨a, b⟩ := e
    unfold map_find at ih ⊢
    by_cases hk : key = a
    · subst hk
      simp
    · have hb : (key == a) = false := by simpa using hk
      simp only [List.lookup_cons, hb, ih, List.map_cons, List.mem_cons, hk, false_or]

theorem duplicate_visitor_new (NDEBUG : Bool) (g : Graph) (fuel : Nat) (current : KernelPtr)
    (w : World Data) (hc : (g.deref current).clone ≠ nullptr)
    (hnew : map_find w.data.kernel_map current = none) (hfree : current ∉ w.locks) :
    ∃ w', duplicate_visitor NDEBUG g (fuel + 1) current w = some (.returned w') ∧
      w'.locks = w.locks ∧
      w'.data.kernel_map = w.data.kernel_map ++ [(current, (g.deref current).clone)] ∧
      ∀ l ∈ w'.data.temp_map.links, l ∈ w.data.temp_map.links ∨
        (l.src = (g.deref current).clone ∧ l.dst ∈ w'.data.kernel_map.map Prod.snd) := by
  by_cases hkm : w.data.kernel_map = []
  · refine ⟨_, duplicate_visitor_first NDEBUG g (fuel + 1) current w hc hkm, rfl, ?_, ?_⟩
    · simp [hkm]
    · intro l hl
      exact Or.inl hl
  · refine ⟨_, duplicate_visitor_later NDEBUG g fuel current w hc hkm (Or.inr hnew) hfree,
      rfl, ?_, ?_⟩
    · simp only [duplicate_ports_kernel_map, map_insert_new _ hnew]
    · intro l hl
      simp only [duplicate_ports_links, duplicate_ports_kernel_map, map_insert_new _ hnew,
        List.mem_append, List.mem_filterMap] at hl ⊢
      rcases hl with hl | ⟨p, _, hp⟩
      · exact Or.inl hl
      · right
        unfold link_of at hp
        cases hf : map_find (w.data.kernel_map ++ [(current, (g.deref current).clone)])
            p.other_kernel with
        | none => rw [hf] at hp; simp at hp
        | some found =>
          rw [hf] at hp
          simp only [Option.map_some', Option.some.injEq] at hp
          subst hp
          exact ⟨rfl, map_find_mem_values _ _ _ hf⟩

theorem visitor_calls_inv (NDEBUG : Bool) (g : Graph) (fuel : Nat) :
    ∀ (ks : List KernelPtr) (w : World Data) (done : List KernelPtr),
      (∀ k ∈ ks, (g.deref k).clone ≠ nullptr) → ks.Nodup → (∀ k ∈ ks, k ∉ done) →
      w.locks = [] → w.data.kernel_map.map Prod.fst = done →
      (∀ v ∈ w.data.kernel_map.map Prod.snd, ∃ k ∈ done, v = (g.deref k).clone) →
      (∀ l ∈ w.data.temp_map.links, l.src ∈ w.data.kernel_map.map Prod.snd ∧
        l.dst ∈ w.data.kernel_map.map Prod.snd) →
      ∃ w', visitor_calls NDEBUG g (fuel + 1) ks w = some (.returned w') ∧
        w'.locks = [] ∧ w'.data.kernel_map.map Prod.fst = done ++ ks ∧
        (∀ v ∈ w'.data.kernel_map.map Prod.snd, ∃ k ∈ done ++ ks, v = (g.deref k).clone) ∧
        (∀ l ∈ w'.data.temp_map.links, l.src ∈ w'.data.kernel_map.map Prod.snd ∧
          l.dst ∈ w'.data.kernel_map.map Prod.snd) := by
  intro ks
  induction ks with
  | nil =>
    intro w done _ _ _ hl hk hv hlinks
    exact ⟨w, rfl, hl, by simpa using hk, by simpa using hv, hlinks⟩
  | cons k rest ih =>
    intro w done hclone hnd hfresh hl hk hv hlinks
    have hnew : map_find w.data.kernel_map k = none := by
      rw [map_find_none_not_key, hk]
      exact hfresh k (List.mem_cons_self _ _)
    have hfree : k ∉ w.locks := by rw [hl]; simp
    obtain ⟨w1, h1, h2, h3, h4⟩ := duplicate_visitor_new NDEBUG g fuel k w
      (hclone k (List.mem_cons_self _ _)) hnew hfree
    have hnd' := List.nodup_cons.mp hnd
    obtain ⟨w', r1, r2, r3, r4, r5⟩ := ih w1 (done ++ [k])
      (fun a ha => hclone a (List.mem_cons_of_mem _ ha)) hnd'.2
      (by
        intro a ha hmem
        rcases List.mem_append.mp hmem with hmem | hmem
        · exact hfresh a (List.mem_cons_of_mem _ ha) hmem
        · rw [List.mem_singleton] at hmem
          subst hmem
          exact hnd'.1 ha)
      (by rw [h2, hl])
      (by rw [h3]; simp [hk])
      (by
        intro v hv'
        rw [h3] at hv'
        simp only [List.map_append, List.map_cons, List.map_nil, List.mem_append,
          List.mem_singleton] at hv'
        rcases hv' with hv' | hv'
        · obtain ⟨a, ha, e⟩ := hv v hv'
          exact ⟨a, List.mem_append_left _ ha, e⟩
        · exact ⟨k, by simp, hv'⟩)
      (by
        intro l hl'
        rcases h4 l hl' with hl' | ⟨e1, e2⟩
        · obtain ⟨a, b⟩ := hlinks l hl'
          rw [h3]
          simp only [List.map_append, List.mem_append]
          exact ⟨Or.inl a, Or.inl b⟩
        · refine ⟨?_, e2⟩
          rw [e1, h3]
          simp)
    refine ⟨w', ?_, r2, by simpa using r3, by simpa using r4, r5⟩
    rw [visitor_calls, h1]
    exact r1

theorem visit_dst_visited {σ : Type} (p : PortInfo) (st : State σ) :
    (∀ x ∈ st.visited_set, x ∈ (visit_dst p st).visited_set) ∧
    (∀ x ∈ (visit_dst p st).queue, x ∈ st.queue ∨ x ∈ (visit_dst p st).visited_set) := by
  unfold visit_dst
  by_cases h : p.other_kernel ∈ st.visited_set
  · simp only [h, not_true_eq_false, if_false]
    exact ⟨fun x hx => hx, fun x hx => Or.inl hx⟩
  · simp only [h, not_false_eq_true, if_true]
    constructor
    · intro x hx
      exact List.mem_insert_of_mem hx
    · intro x hx
      rcases List.mem_append.mp hx with hx | hx
      · exact Or.inl hx
      · rw [List.mem_singleton] at hx
        subst hx
        exact Or.inr (List.mem_insert_self _ _)

theorem edge_ports_visited {σ : Type} (g : Graph) (f : edge_func σ) (ce : Bool)
    (k : KernelPtr) :
    ∀ (ports : List PortInfo) (st : State σ),
      (∀ st1, edge_ports g f ce k ports st = .returned st1 →
        (∀ x ∈ st.visited_set, x ∈ st1.visited_set) ∧
        (∀ x ∈ st1.queue, x ∈ st.queue ∨ x ∈ st1.visited_set)) ∧
      (∀ e st1, edge_ports g f ce k ports st = .threw e st1 →
        ∀ x ∈ st.visited_set, x ∈ st1.visited_set) := by
  intro ports
  induction ports with
  | nil =>
    intro st
    constructor
    · intro st1 h
      simp only [edge_ports, Outcome.returned.injEq] at h
      subst h
      exact ⟨fun x hx => hx, fun x hx => Or.inl hx⟩
    · intro e st1 h
      simp [edge_ports] at h
  | cons p rest ih =>
    intro st
    have hstep : ∀ (st0 : State σ), st0.visited_set = st.visited_set → st0.queue = st.queue →
        (∀ st1, edge_ports g f ce k rest (visit_dst p st0) = .returned st1 →
          (∀ x ∈ st.visited_set, x ∈ st1.visited_set) ∧
          (∀ x ∈ st1.queue, x ∈ st.queue ∨ x ∈ st1.visited_set)) ∧
        (∀ e st1, edge_ports g f ce k rest (visit_dst p st0) = .threw e st1 →
          ∀ x ∈ st.visited_set, x ∈ st1.visited_set) := by
      intro st0 hv hq
      obtain ⟨a, b⟩ := ih (visit_dst p st0)
      obtain ⟨c, d⟩ := visit_dst_visited p st0
      rw [hv] at c
      rw [hq] at d
      constructor
      · intro st1 h
        obtain ⟨a1, a2⟩ := a st1 h
        refine ⟨fun x hx => a1 x (c x hx), ?_⟩
        intro x hx
        rcases a2 x hx with hx | hx
        · rcases d x hx with hx | hx
          · exact Or.inl hx
          · exact Or.inr (a1 x hx)
        · exact Or.inr hx
      · intro e st1 h x hx
        exact b e st1 h x (c x hx)
    by_cases hp : p.other_kernel = nullptr
    · cases ce with
      | true =>
        constructor
        · intro st1 h
          simp [edge_ports, hp] at h
        · intro e st1 h
          simp only [edge_ports, hp, ne_eq, not_true_eq_false, if_false, if_true,
            Outcome.threw.injEq] at h
          rw [← h.2]
          exact fun x hx => hx
      | false =>
        have e1 : edge_ports g f false k (p :: rest) st =
            edge_ports g f false k rest (visit_dst p st) := by
          simp [edge_ports, hp]
        rw [e1]
        exact hstep st rfl rfl
    · cases hl : getPortInfoFor (g.deref p.other_kernel).input p.other_name with
      | error e =>
        have e1 : edge_ports g f ce k (p :: rest) st = .threw e st := by
          simp [edge_ports, hp, hl]
        rw [e1]
        constructor
        · intro st1 h; simp at h
        · intro e' st1 h
          simp only [Outcome.threw.injEq] at h
          rw [← h.2]
          exact fun x hx => hx
      | ok dst =>
        have e1 : edge_ports g f ce k (p :: rest) st =
            edge_ports g f ce k rest (visit_dst p { st with data := f p dst st.data }) := by
          simp [edge_ports, hp, hl]
        rw [e1]
        exact hstep { st with data := f p dst st.data } rfl rfl

theorem edge_ports_message {σ : Type} (g : Graph) (f : edge_func σ) (ce : Bool)
    (k : KernelPtr) :
    ∀ (ports : List PortInfo) (st st' : State σ) (msg : String),
      edge_ports g f ce k ports st = .threw (.PortException msg) st' →
      ce = true ∧ ∃ pre p post, ports = pre ++ p :: post ∧
        (∀ q ∈ pre, q.other_kernel ≠ nullptr) ∧ p.other_kernel = nullptr ∧
        msg = unconnectedMessage (g.deref k) p := by
  intro ports
  induction ports with
  | nil => intro st st' msg h; simp [edge_ports] at h
  | cons p rest ih =>
    intro st st' msg h
    by_cases hp : p.other_kernel = nullptr
    · cases ce with
      | true =>
        simp only [edge_ports, hp, ne_eq, not_true_eq_false, if_false, if_true,
          Outcome.threw.injEq, Exception.PortException.injEq] at h
        exact ⟨rfl, [], p, rest, rfl, by simp, hp, h.1.symm⟩
      | false =>
        have e1 : edge_ports g f false k (p :: rest) st =
            edge_ports g f false k rest (visit_dst p st) := by
          simp [edge_ports, hp]
        rw [e1] at h
        exact absurd (ih _ _ _ h).1 (by simp)
    · cases hl : getPortInfoFor (g.deref p.other_kernel).input p.other_name with
      | error e =>
        have e1 : edge_ports g f ce k (p :: rest) st = .threw e st := by
          simp [edge_ports, hp, hl]
        rw [e1] at h
        simp only [Outcome.threw.injEq] at h
        exfalso
        have h1 := h.1
        subst h1
        unfold getPortInfoFor at hl
        split at hl <;> simp at hl
      | ok dst =>
        have e1 : edge_ports g f ce k (p :: rest) st =
            edge_ports g f ce k rest (visit_dst p { st with data := f p dst st.data }) := by
          simp [edge_ports, hp, hl]
        rw [e1] at h
        obtain ⟨hce, pre, q, post, h1, h2, h3, h4⟩ := ih _ _ _ h
        refine ⟨hce, p :: pre, q, post, by rw [h1]; rfl, ?_, h3, h4⟩
        intro x hx
        rcases List.mem_cons.mp hx with rfl | hx
        · exact hp
        · exact h2 x hx

theorem edge_BFS_visited {σ : Type} (g : Graph) (f : edge_func σ) (ce : Bool) :
    ∀ (fuel : Nat) (st st' : State σ) (e : Exception),
      __BFS_edge_func g f ce fuel st = some (.threw e st') →
      ∀ x ∈ st.visited_set, x ∈ st'.visited_set := by
  intro fuel
  induction fuel with
  | zero => intro st st' e h; simp [__BFS_edge_func] at h
  | succ fuel ih =>
    intro st st' e h
    rw [__BFS_edge_func] at h
    cases hq : st.queue with
    | nil => simp [hq] at h
    | cons k rest =>
      simp only [hq] at h
      by_cases hk : k = nullptr
      · simp [hk] at h
      · simp only [if_neg hk] at h
        cases hlock : lock st.locks k (fuel + 1) with
        | none => simp [hlock] at h
        | some locks =>
          simp only [hlock] at h
          cases hE : edge_ports g f ce k (g.deref k).output
              { st with queue := rest, locks := locks } with
          | returned st1 =>
            rw [hE] at h
            have h1 := ((edge_ports_visited g f ce k _ _).1 st1 hE).1
            intro x hx
            exact ih _ _ _ h x (h1 x hx)
          | threw e1 st1 =>
            rw [hE] at h
            simp only [Option.some.injEq, Outcome.threw.injEq] at h
            obtain ⟨_, hst⟩ := h
            subst hst
            exact (edge_ports_visited g f ce k (g.deref k).output
              { st with queue := rest, locks := locks }).2 e1 st1 hE
          | exited status => rw [hE] at h; simp at h
          | aborted => rw [hE] at h; simp at h

theorem push_dsts_agree (ports : List PortInfo) :
    ∀ (qe vse q vs : List KernelPtr), AgreeUpToNull qe vse q vs →
      AgreeUpToNull (push_dsts ports qe vse).1 (push_dsts ports qe vse).2
        (push_children ports q vs).1 (push_children ports q vs).2 := by
  induction ports with
  | nil => intro qe vse q vs h; exact h
  | cons p rest ih =>
    intro qe vse q vs h
    obtain ⟨h1, h2⟩ := h
    by_cases hp : p.other_kernel = nullptr
    · have hc : ¬ (p.other_kernel ≠ nullptr ∧ p.other_kernel ∉ vs) := fun c => c.1 hp
      rw [push_children_neg _ _ _ _ hc]
      by_cases hv : p.other_kernel ∈ vse
      · rw [push_dsts, if_neg (not_not.mpr hv)]
        exact ih _ _ _ _ ⟨h1, h2⟩
      · rw [push_dsts, if_pos hv]
        apply ih
        constructor
        · rw [List.filter_append, h1]
          simp [hp]
        · intro x hx
          rw [List.mem_insert_iff, ← h2 x hx]
          constructor
          · rintro (h | h)
            · exact absurd (h.trans hp) hx
            · exact h
          · exact Or.inr
    · have hiff := h2 _ hp
      by_cases hv : p.other_kernel ∈ vse
      · have hc : ¬ (p.other_kernel ≠ nullptr ∧ p.other_kernel ∉ vs) :=
          fun c => c.2 (hiff.mp hv)
        rw [push_children_neg _ _ _ _ hc, push_dsts, if_neg (not_not.mpr hv)]
        exact ih _ _ _ _ ⟨h1, h2⟩
      · have hc : p.other_kernel ≠ nullptr ∧ p.other_kernel ∉ vs :=
          ⟨hp, fun c => hv (hiff.mpr c)⟩
        rw [push_children_pos _ _ _ _ hc, push_dsts, if_pos hv]
        apply ih
        constructor
        · rw [List.filter_append, h1]
          simp [hp]
        · intro x hx
          rw [List.mem_insert_iff, List.mem_insert_iff, h2 x hx]

theorem edge_ports_tolerant {σ : Type} (g : Graph) (f : edge_func σ) (k : KernelPtr) :
    ∀ (ports : List PortInfo) (st : State σ),
      (∀ p ∈ ports, p.other_kernel ≠ nullptr →
        ∃ dst, getPortInfoFor (g.deref p.other_kernel).input p.other_name = .ok dst) →
      edge_ports g f false k ports st = .returned
        { st with queue := (push_dsts ports st.queue st.visited_set).1,
                  visited_set := (push_dsts ports st.queue st.visited_set).2,
                  data := (edge_calls g ports).foldl (fun d e => f e.1 e.2 d) st.data } := by
  intro ports
  induction ports with
  | nil => intro st _; simp [edge_ports, push_dsts, edge_calls]
  | cons p rest ih =>
    intro st h
    have hrest := fun q hq => h q (List.mem_cons_of_mem _ hq)
    by_cases hp : p.other_kernel = nullptr
    · have e1 : edge_ports g f false k (p :: rest) st =
          edge_ports g f false k rest (visit_dst p st) := by
        simp [edge_ports, hp]
      have e2 : edge_calls g (p :: rest) = edge_calls g rest := by
        simp [edge_calls, hp]
      rw [e1, ih _ hrest, e2]
      by_cases hv : p.other_kernel ∈ st.visited_set
      · rw [push_dsts, if_neg (not_not.mpr hv)]
        simp [visit_dst, hv]
      · rw [push_dsts, if_pos hv]
        simp [visit_dst, hv]
    · obtain ⟨dst, hl⟩ := h p (List.mem_cons_self _ _) hp
      have e1 : edge_ports g f false k (p :: rest) st =
          edge_ports g f false k rest (visit_dst p { st with data := f p dst st.data }) := by
        simp [edge_ports, hp, hl]
      have e2 : edge_calls g (p :: rest) = (p, dst) :: edge_calls g rest := by
        simp [edge_calls, hp, hl]
      rw [e1, ih _ hrest, e2]
      by_cases hv : p.other_kernel ∈ st.visited_set
      · rw [push_dsts, if_neg (not_not.mpr hv)]
        simp [visit_dst, hv]
      · rw [push_dsts, if_pos hv]
        simp [visit_dst, hv]

theorem edge_link_tolerant (g : Graph) :
    ∀ (fuel : Nat) (qe vse q vs order : List KernelPtr),
      AgreeUpToNull qe vse q vs → bfs_order g fuel q vs = some order →
      LookupsSucceed g order →
      ∃ calls : List (PortInfo × PortInfo),
        (∀ e ∈ calls, e.1.other_kernel ≠ nullptr ∧
          getPortInfoFor (g.deref e.1.other_kernel).input e.1.other_name = .ok e.2) ∧
        ∀ (σ : Type) (f : edge_func σ) (d : σ),
          ∃ st, __BFS_edge_func g f false fuel ⟨qe, vse, [], d⟩ = some (.returned st) ∧
            st.locks = [] ∧ st.data = calls.foldl (fun d e => f e.1 e.2 d) d := by
  intro fuel
  induction fuel with
  | zero => intro qe vse q vs order _ h; simp [bfs_order] at h
  | succ fuel ih =>
    intro qe vse q vs order hag h hl
    cases qe with
    | nil =>
      refine ⟨[], by simp, fun σ f d => ⟨⟨[], vse, [], d⟩, ?_, rfl, rfl⟩⟩
      simp [__BFS_edge_func]
    | cons k reste =>
      by_cases hk : k = nullptr
      · refine ⟨[], by simp, fun σ f d => ⟨⟨reste, vse, [], d⟩, ?_, rfl, rfl⟩⟩
        simp [__BFS_edge_func, hk]
      · obtain ⟨hq, hvs⟩ := hag
        have hq' : q = k :: reste.filter (fun x => decide (x ≠ nullptr)) := by
          rw [← hq, List.filter_cons]
          simp [hk]
        subst hq'
        obtain ⟨order', rfl, ho⟩ := bfs_order_cons hk h
        have hports := hl k (List.mem_cons_self _ _)
        obtain ⟨calls', hc1, hc2⟩ := ih _ _ _ _ order'
          (push_dsts_agree (g.deref k).output reste vse _ vs ⟨rfl, hvs⟩) ho
          (fun a ha => hl a (List.mem_cons_of_mem _ ha))
        refine ⟨edge_calls g (g.deref k).output ++ calls', ?_, ?_⟩
        · intro e he
          rcases List.mem_append.mp he with he | he
          · exact (edge_calls_snd g _ e he).2
          · exact hc1 e he
        · intro σ f d
          obtain ⟨st, h1, h2, h3⟩ := hc2 σ f
            ((edge_calls g (g.deref k).output).foldl (fun d e => f e.1 e.2 d) d)
          refine ⟨st, ?_, h2, by simpa using h3⟩
          rw [__BFS_edge_func]
          simp only [if_neg hk, lock_free, edge_ports_tolerant g f k _ _ hports, unlock_self]
          exact h1

theorem unvisited_insert {n : Nat} {x : KernelPtr} {vs : List KernelPtr}
    (hx : x ≤ n) (hv : x ∉ vs) : unvisited n (vs.insert x) + 1 ≤ unvisited n vs := by
  have hmem : x ∈ (List.range (n + 1)).filter (fun y => decide (y ∉ vs)) := by
    refine List.mem_filter.mpr ⟨List.mem_range.mpr ?_, by simpa using hv⟩
    unfold KernelPtr at *
    omega
  have hnd : ((List.range (n + 1)).filter (fun y => decide (y ∉ vs))).Nodup :=
    (List.nodup_range _).filter _
  have e : (List.range (n + 1)).filter (fun y => decide (y ∉ vs.insert x)) =
      ((List.range (n + 1)).filter (fun y => decide (y ∉ vs))).erase x := by
    rw [hnd.erase_eq_filter, List.filter_filter]
    apply List.filter_congr
    intro y _
    simp only [List.mem_insert_iff, not_or, ne_eq, decide_not, Bool.decide_and,
      Bool.and_comm]
    rfl
  have hpos := List.length_pos_of_mem hmem
  rw [unvisited, unvisited, e, List.length_erase_of_mem hmem]
  omega

theorem deref_ports_le (g : Graph) (hwf : g.WellFormed) (k : KernelPtr) :
    ∀ p ∈ (g.deref k).output, p.other_kernel ≤ g.kernels.length := by
  by_cases hv : g.valid k
  · exact hwf _ (deref_mem g k hv)
  · have he : g.deref k = kernel.empty := by
      unfold Graph.deref
      by_cases hk : k = nullptr
      · rw [if_pos hk]
      · rw [if_neg hk]
        apply List.getD_eq_default
        unfold Graph.valid KernelPtr nullptr at *
        omega
    rw [he]
    intro p hp
    simp [kernel.empty] at hp

theorem visit_dst_measure {σ : Type} (n : Nat) (p : PortInfo) (st : State σ)
    (hp : p.other_kernel ≤ n) :
    (visit_dst p st).queue.length + unvisited n (visit_dst p st).visited_set ≤
      st.queue.length + unvisited n st.visited_set := by
  unfold visit_dst
  by_cases h : p.other_kernel ∈ st.visited_set
  · simp only [h, not_true_eq_false, if_false]
    exact le_refl _
  · simp only [h, not_false_eq_true, if_true, List.length_append, List.length_singleton]
    have := unvisited_insert hp h
    omega

theorem edge_ports_measure {σ : Type} (g : Graph) (f : edge_func σ) (ce : Bool)
    (k : KernelPtr) (n : Nat) :
    ∀ (ports : List PortInfo) (st st1 : State σ),
      (∀ p ∈ ports, p.other_kernel ≤ n) →
      edge_ports g f ce k ports st = .returned st1 →
      st1.queue.length + unvisited n st1.visited_set ≤
        st.queue.length + unvisited n st.visited_set := by
  intro ports
  induction ports with
  | nil =>
    intro st st1 _ h
    simp only [edge_ports, Outcome.returned.injEq] at h
    subst h
    exact le_refl _
  | cons p rest ih =>
    intro st st1 hle h
    have hp := hle p (List.mem_cons_self _ _)
    have hrest := fun q hq => hle q (List.mem_cons_of_mem _ hq)
    by_cases hnull : p.other_kernel = nullptr
    · cases ce with
      | true => simp [edge_ports, hnull] at h
      | false =>
        have e1 : edge_ports g f false k (p :: rest) st =
            edge_ports g f false k rest (visit_dst p st) := by
          simp [edge_ports, hnull]
        rw [e1] at h
        exact le_trans (ih _ _ hrest h) (visit_dst_measure n p st hp)
    · cases hl : getPortInfoFor (g.deref p.other_kernel).input p.other_name with
      | error e =>
        have e1 : edge_ports g f ce k (p :: rest) st = .threw e st := by
          simp [edge_ports, hnull, hl]
        rw [e1] at h
        simp at h
      | ok dst =>
        have e1 : edge_ports g f ce k (p :: rest) st =
            edge_ports g f ce k rest (visit_dst p { st with data := f p dst st.data }) := by
          simp [edge_ports, hnull, hl]
        rw [e1] at h
        exact le_trans (ih _ _ hrest h)
          (visit_dst_measure n p { st with data := f p dst st.data } hp)

theorem push_children_measure (n : Nat) :
    ∀ (ports : List PortInfo) (q vs : List KernelPtr),
      (∀ p ∈ ports, p.other_kernel ≤ n) →
      (push_children ports q vs).1.length + unvisited n (push_children ports q vs).2 ≤
        q.length + unvisited n vs := by
  intro ports
  induction ports with
  | nil => intro q vs _; exact le_refl _
  | cons p rest ih =>
    intro q vs hle
    have hp := hle p (List.mem_cons_self _ _)
    have hrest := fun q hq => hle q (List.mem_cons_of_mem _ hq)
    by_cases h : p.other_kernel ≠ nullptr ∧ p.other_kernel ∉ vs
    · rw [push_children_pos _ _ _ _ h]
      have h1 := ih (q ++ [p.other_kernel]) (vs.insert p.other_kernel) hrest
      have h2 := unvisited_insert hp h.2
      simp only [List.length_append, List.length_singleton] at h1
      omega
    · rw [push_children_neg _ _ _ _ h]
      exact ih q vs hrest

theorem edge_BFS_terminates {σ : Type} (g : Graph) (hwf : g.WellFormed) (f : edge_func σ)
    (ce : Bool) :
    ∀ (fuel : Nat) (st : State σ), st.locks = [] →
      st.queue.length + unvisited g.kernels.length st.visited_set < fuel →
      ∃ out, __BFS_edge_func g f ce fuel st = some out := by
  intro fuel
  induction fuel with
  | zero => intro st _ h; omega
  | succ fuel ih =>
    intro st hfree hm
    rw [__BFS_edge_func]
    cases hq : st.queue with
    | nil => exact ⟨_, rfl⟩
    | cons k rest =>
      by_cases hk : k = nullptr
      · simp only [hk, if_true]
        exact ⟨_, rfl⟩
      · simp only [if_neg hk, hfree, lock_free]
        cases hE : edge_ports g f ce k (g.deref k).output
            { st with queue := rest, locks := [k] } with
        | returned st1 =>
          simp only
          apply ih
          · show unlock st1.locks k = []
            rw [(edge_ports_locks g f ce k _ _).1 st1 hE]
            exact unlock_self k
          · have h1 := edge_ports_measure g f ce k g.kernels.length _ _ st1
              (deref_ports_le g hwf k) hE
            rw [hq] at hm
            simp only [List.length_cons] at hm
            show st1.queue.length + unvisited g.kernels.length st1.visited_set < fuel
            have h2 : rest.length + unvisited g.kernels.length st.visited_set < fuel := by
              omega
            exact lt_of_le_of_lt h1 h2
        | threw e st1 => exact ⟨_, rfl⟩
        | exited status => exact ⟨_, rfl⟩
        | aborted => exact ⟨_, rfl⟩

theorem vertex_BFS_terminates {σ : Type} (g : Graph) (hwf : g.WellFormed)
    (f : KernelPtr → σ → σ) :
    ∀ (fuel : Nat) (st : State σ), st.locks = [] →
      st.queue.length + unvisited g.kernels.length st.visited_set < fuel →
      ∃ out, __BFS_vertex_func g (pure_visitor f) fuel st = some out := by
  intro fuel
  induction fuel with
  | zero => intro st _ h; omega
  | succ fuel ih =>
    intro st hfree hm
    rw [__BFS_vertex_func]
    cases hq : st.queue with
    | nil => exact ⟨_, rfl⟩
    | cons k rest =>
      by_cases hk : k = nullptr
      · simp only [hk, if_true]
        exact ⟨_, rfl⟩
      · simp only [if_neg hk, hfree, lock_free, pure_visitor, vertex_ports_eq, unlock_self]
        apply ih
        · rfl
        · have h1 := push_children_measure g.kernels.length (g.deref k).output rest
            st.visited_set (deref_ports_le g hwf k)
          rw [hq] at hm
          simp only [List.length_cons] at hm
          show (push_children (g.deref k).output rest st.visited_set).1.length +
            unvisited g.kernels.length
              (push_children (g.deref k).output rest st.visited_set).2 < fuel
          omega

theorem cycle3_clones (k : KernelPtr) (hk : cycle3.valid k) :
    (cycle3.deref k).clone ≠ nullptr ∧ ¬ cycle3.valid (cycle3.deref k).clone := by
  obtain ⟨h1, h2⟩ := hk
  have h3 : k ≤ 3 := h2
  unfold KernelPtr at *
  interval_cases k <;> decide

theorem lock_some {locks l : List KernelPtr} {k : KernelPtr} :
    ∀ fuel, lock locks k fuel = some l → k ∉ locks ∧ l = k :: locks := by
  intro fuel
  induction fuel with
  | zero => intro h; simp [lock] at h
  | succ n ih =>
    intro h
    by_cases hk : k ∈ locks
    · rw [lock, if_pos hk] at h
      exact ih h
    · rw [lock, if_neg hk] at h
      simp only [Option.some.injEq] at h
      exact ⟨hk, h.symm⟩

theorem Enumerating.throw_unique {σ : Type} {g : Graph} {f : edge_func σ} {ce : Bool}
    {st s1 s2 x1 x2 : State σ} {k1 k2 : KernelPtr} {e1 e2 : Exception}
    (h1 : Enumerating g f ce st k1 s1)
    (t1 : edge_ports g f ce k1 (g.deref k1).output s1 = .threw e1 x1)
    (h2 : Enumerating g f ce st k2 s2)
    (t2 : edge_ports g f ce k2 (g.deref k2).output s2 = .threw e2 x2) :
    k1 = k2 ∧ s1 = s2 := by
  induction h1 with
  | first hq hk hl =>
    cases h2 with
    | first hq' hk' hl' =>
      rw [hq] at hq'
      simp only [List.cons.injEq] at hq'
      obtain ⟨hkk, hrr⟩ := hq'
      subst hkk hrr
      exact ⟨rfl, rfl⟩
    | next hq' hk' hl' hret' hen' =>
      rw [hq] at hq'
      simp only [List.cons.injEq] at hq'
      obtain ⟨hkk, hrr⟩ := hq'
      subst hkk hrr
      rw [t1] at hret'
      simp at hret'
  | next hq hk hl hret hen ih =>
    cases h2 with
    | first hq' hk' hl' =>
      rw [hq] at hq'
      simp only [List.cons.injEq] at hq'
      obtain ⟨hkk, hrr⟩ := hq'
      subst hkk hrr
      rw [t2] at hret
      simp at hret
    | next hq' hk' hl' hret' hen' =>
      rw [hq] at hq'
      simp only [List.cons.injEq] at hq'
      obtain ⟨hkk, hrr⟩ := hq'
      subst hkk hrr
      rw [hret] at hret'
      simp only [Outcome.returned.injEq] at hret'
      subst hret'
      exact ih t1 hen'

theorem edge_BFS_message {σ : Type} (g : Graph) (f : edge_func σ) (ce : Bool) :
    ∀ (fuel : Nat) (st st' : State σ) (msg : String),
      __BFS_edge_func g f ce fuel st = some (.threw (.PortException msg) st') →
      ∃ k s pre p post, Enumerating g f ce st k s ∧
        edge_ports g f ce k (g.deref k).output s = .threw (.PortException msg) st' ∧
        (k ∈ st.queue ∨ k ∈ st'.visited_set) ∧ k ≠ nullptr ∧
        (g.deref k).output = pre ++ p :: post ∧
        (∀ q ∈ pre, q.other_kernel ≠ nullptr) ∧ p.other_kernel = nullptr ∧
        msg = unconnectedMessage (g.deref k) p := by
  intro fuel
  induction fuel with
  | zero => intro st st' msg h; simp [__BFS_edge_func] at h
  | succ fuel ih =>
    intro st st' msg h
    rw [__BFS_edge_func] at h
    cases hq : st.queue with
    | nil => simp [hq] at h
    | cons k0 rest =>
      simp only [hq] at h
      by_cases hk : k0 = nullptr
      · simp [hk] at h
      · simp only [if_neg hk] at h
        cases hlock : lock st.locks k0 (fuel + 1) with
        | none => simp [hlock] at h
        | some locks =>
          simp only [hlock] at h
          obtain ⟨hfree, hlocks⟩ := lock_some _ hlock
          subst hlocks
          cases hE : edge_ports g f ce k0 (g.deref k0).output
              { st with queue := rest, locks := k0 :: st.locks } with
          | returned st1 =>
            rw [hE] at h
            obtain ⟨k, s, pre, p, post, hen, hthrow, hmem, hrest⟩ := ih _ _ _ h
            refine ⟨k, s, pre, p, post, Enumerating.next hq hk hfree hE hen, hthrow, ?_,
              hrest⟩
            rcases hmem with hmem | hmem
            · rcases ((edge_ports_visited g f ce k0 _ _).1 st1 hE).2 k hmem with hx | hx
              · exact Or.inl (List.mem_cons_of_mem _ hx)
              · exact Or.inr (edge_BFS_visited g f ce fuel _ _ _ h k hx)
            · exact Or.inr hmem
          | threw e1 st1 =>
            rw [hE] at h
            simp only [Option.some.injEq, Outcome.threw.injEq] at h
            obtain ⟨he, hst⟩ := h
            subst he hst
            obtain ⟨_, pre, p, post, h1, h2, h3, h4⟩ :=
              edge_ports_message g f ce k0 _ _ _ _ hE
            exact ⟨k0, _, pre, p, post, Enumerating.first hq hk hfree, hE,
              Or.inl (List.mem_cons_self _ _), hk, h1, h2, h3, h4⟩
          | exited status => rw [hE] at h; simp at h
          | aborted => rw [hE] at h; simp at h

/-- C1: `GraphTools::BFS` with a vertex visitor, called on a finite graph with a
set of non-null sources while no port-table mutex is held, returns (given enough
fuel) and has invoked the visitor on the kernels of a duplicate-free list
`visits`, in that order, whose members are exactly the kernels reachable from
the sources by following connected output ports; every mutex is free again on
return. -/
theorem C1_vertex_BFS_complete (g : Graph) (source_kernels : List KernelPtr)
    (hwf : g.WellFormed) (hset : source_kernels.Pairwise (fun a b => a < b))
    (hsrc : ∀ s ∈ source_kernels, g.valid s) :
    ∃ (N : Nat) (visits : List KernelPtr),
      visits.Nodup ∧ (∀ v, v ∈ visits ↔ Reachable g source_kernels v) ∧
      ∀ (fuel : Nat), N ≤ fuel → ∀ (σ : Type) (f : KernelPtr → σ → σ) (data : σ),
        ∃ st, BFS_set_vertex_func g source_kernels (pure_visitor f) data [] fuel =
            some (.returned st) ∧
          st.locks = [] ∧ st.data = visits.foldl (fun d k => f k d) data := by
  obtain ⟨N, order, lev, ho, hnd, hmem, _, _⟩ :=
    bfs_order_spec g source_kernels hwf (nodup_of_set hset) hsrc
  refine ⟨N, order, hnd, hmem, ?_⟩
  intro fuel hle σ f data
  exact vertex_link g f fuel _ _ data order (ho fuel hle)

theorem C1_vertex_BFS_complete_witness :
    (cycle3.WellFormed ∧ [1].Pairwise (fun a b => a < b) ∧ ∀ s ∈ [1], cycle3.valid s) ∧
    ∃ (N : Nat) (visits : List KernelPtr),
      visits.Nodup ∧ (∀ v, v ∈ visits ↔ Reachable cycle3 [1] v) ∧
      ∀ (fuel : Nat), N ≤ fuel → ∀ (σ : Type) (f : KernelPtr → σ → σ) (data : σ),
        ∃ st, BFS_set_vertex_func cycle3 [1] (pure_visitor f) data [] fuel =
            some (.returned st) ∧
          st.locks = [] ∧ st.data = visits.foldl (fun d k => f k d) data :=
  ⟨⟨by decide, by decide, by decide⟩,
    C1_vertex_BFS_complete cycle3 [1] (by decide) (by decide) (by decide)⟩

/-- C2: on the 3-cycle `A -> B -> C -> A` seeded at `A`,
`duplicateFromVertexToSource` returns a Wiring Map without any link (the
specification asks for 3): the visitor lambda is built but never handed to a
traversal. -/
theorem C2_duplicate_returns_empty_map (NDEBUG : Bool) :
    duplicateFromVertexToSource NDEBUG cycle3 1 = .returned (some ⟨[]⟩) := by
  cases NDEBUG <;> rfl

/-- C3: edge-visitor `BFS` with `connected_error = true`, on a finite graph and a
set of non-null sources where the input-port lookup of every connected port of a
reachable kernel succeeds, ends (given enough fuel); it ends by throwing
`PortException` if and only if some reachable kernel has an output port whose
`other_kernel` is null, and it returns normally when there is no such port. -/
theorem C3_unconnected_fatal {σ : Type} (g : Graph) (source_kernels : List KernelPtr)
    (f : edge_func σ) (data : σ)
    (hwf : g.WellFormed) (hset : source_kernels.Pairwise (fun a b => a < b))
    (hsrc : ∀ s ∈ source_kernels, g.valid s)
    (hlook : ∀ v, Reachable g source_kernels v → ∀ p ∈ (g.deref v).output,
      p.other_kernel ≠ nullptr →
      ∃ dst, getPortInfoFor (g.deref p.other_kernel).input p.other_name = .ok dst) :
    ∃ N, ∀ fuel, N ≤ fuel →
      ∃ out, BFS_set_edge_func g source_kernels f data true [] fuel = some out ∧
        ((∃ msg st, out = .threw (.PortException msg) st) ↔
          ∃ v, Reachable g source_kernels v ∧
            ∃ p ∈ (g.deref v).output, p.other_kernel = nullptr) ∧
        ((¬ ∃ v, Reachable g source_kernels v ∧
            ∃ p ∈ (g.deref v).output, p.other_kernel = nullptr) →
          ∃ st, out = .returned st) := by
  obtain ⟨N, order, lev, ho, hnd, hmem, _, _⟩ :=
    bfs_order_spec g source_kernels hwf (nodup_of_set hset) hsrc
  have hl : LookupsSucceed g order := fun k hk => hlook k ((hmem k).mp hk)
  refine ⟨N, fun fuel hle => ?_⟩
  by_cases hc : AllConnected g order
  · obtain ⟨st, h1, _, _⟩ :=
      edge_link_connected g f true fuel _ _ data order (ho fuel hle) hc hl
    have hno : ¬ ∃ v, Reachable g source_kernels v ∧
        ∃ p ∈ (g.deref v).output, p.other_kernel = nullptr := by
      rintro ⟨v, hv, p, hp, hp0⟩
      exact hc v ((hmem v).mpr hv) p hp hp0
    refine ⟨.returned st, h1, ?_, fun _ => ⟨st, rfl⟩⟩
    constructor
    · rintro ⟨msg, st', h⟩
      simp at h
    · intro h
      exact absurd h hno
  · obtain ⟨msg, st, h1⟩ := edge_link_fatal g f fuel _ _ data order (ho fuel hle) hl hc
    have hyes : ∃ v, Reachable g source_kernels v ∧
        ∃ p ∈ (g.deref v).output, p.other_kernel = nullptr := by
      by_contra hcon
      apply hc
      intro k hk p hp hp0
      exact hcon ⟨k, (hmem k).mp hk, p, hp, hp0⟩
    exact ⟨.threw (.PortException msg) st, h1,
      ⟨fun _ => hyes, fun _ => ⟨msg, st, rfl⟩⟩, fun h => absurd hyes h⟩

theorem C3_unconnected_fatal_witness :
    (dangling.WellFormed ∧ [1].Pairwise (fun a b => a < b) ∧ (∀ s ∈ [1], dangling.valid s) ∧
      ∀ v, Reachable dangling [1] v → ∀ p ∈ (dangling.deref v).output,
        p.other_kernel ≠ nullptr →
        ∃ dst, getPortInfoFor (dangling.deref p.other_kernel).input p.other_name = .ok dst) ∧
    ∃ N, ∀ fuel, N ≤ fuel →
      ∃ out, BFS_set_edge_func dangling [1] record_edges [] true [] fuel = some out ∧
        ((∃ msg st, out = .threw (.PortException msg) st) ↔
          ∃ v, Reachable dangling [1] v ∧
            ∃ p ∈ (dangling.deref v).output, p.other_kernel = nullptr) ∧
        ((¬ ∃ v, Reachable dangling [1] v ∧
            ∃ p ∈ (dangling.deref v).output, p.other_kernel = nullptr) →
          ∃ st, out = .returned st) :=
  ⟨⟨by decide, by decide, by decide, fun v _ => dangling_lookups v⟩,
    C3_unconnected_fatal dangling [1] record_edges [] (by decide) (by decide) (by decide)
      (fun v _ => dangling_lookups v)⟩

/-- C4: on a finite graph in which every output port of every reachable kernel is
connected and its input-port lookup succeeds, edge-visitor `BFS` on a set of
non-null sources returns (given enough fuel, for either value of
`connected_error`) and has invoked the visitor on the list `calls`, threading
the caller's context: the source arguments of `calls` are the output ports of
the kernels of `visits`, each port once, where `visits` lists every reachable
kernel exactly once, and the destination argument of every call is the
`PortInfo` found under `other_name` in the input table of `other_kernel`. -/
theorem C4_edge_BFS_correct (g : Graph) (source_kernels : List KernelPtr)
    (hwf : g.WellFormed) (hset : source_kernels.Pairwise (fun a b => a < b))
    (hsrc : ∀ s ∈ source_kernels, g.valid s)
    (hconn : ∀ v, Reachable g source_kernels v → ∀ p ∈ (g.deref v).output,
      p.other_kernel ≠ nullptr ∧
      ∃ dst, getPortInfoFor (g.deref p.other_kernel).input p.other_name = .ok dst) :
    ∃ (N : Nat) (visits : List KernelPtr) (calls : List (PortInfo × PortInfo)),
      visits.Nodup ∧ (∀ v, v ∈ visits ↔ Reachable g source_kernels v) ∧
      calls.map Prod.fst = visits.flatMap (fun k => (g.deref k).output) ∧
      (∀ e ∈ calls,
        getPortInfoFor (g.deref e.1.other_kernel).input e.1.other_name = .ok e.2) ∧
      ∀ (fuel : Nat), N ≤ fuel →
        ∀ (σ : Type) (f : edge_func σ) (data : σ) (connected_error : Bool),
          ∃ st, BFS_set_edge_func g source_kernels f data connected_error [] fuel =
              some (.returned st) ∧
            st.locks = [] ∧ st.data = calls.foldl (fun d e => f e.1 e.2 d) data := by
  obtain ⟨N, order, lev, ho, hnd, hmem, _, _⟩ :=
    bfs_order_spec g source_kernels hwf (nodup_of_set hset) hsrc
  have hc : AllConnected g order := fun k hk p hp => (hconn k ((hmem k).mp hk) p hp).1
  have hl : LookupsSucceed g order := fun k hk p hp _ => (hconn k ((hmem k).mp hk) p hp).2
  refine ⟨N, order, order.flatMap (fun k => edge_calls g (g.deref k).output),
    hnd, hmem, ?_, ?_, ?_⟩
  · rw [List.map_flatMap]
    have hfst : ∀ l : List KernelPtr, (∀ k ∈ l, k ∈ order) →
        l.flatMap (fun k => (edge_calls g (g.deref k).output).map Prod.fst) =
          l.flatMap (fun k => (g.deref k).output) := by
      intro l
      induction l with
      | nil => intro _; rfl
      | cons a l ih =>
        intro hsub
        rw [List.flatMap_cons, List.flatMap_cons,
          edge_calls_fst g _ (hconn a ((hmem a).mp (hsub a (List.mem_cons_self _ _)))),
          ih (fun k hk => hsub k (List.mem_cons_of_mem _ hk))]
    exact hfst order (fun k hk => hk)
  · intro e he
    obtain ⟨k, _, hk⟩ := List.mem_flatMap.mp he
    exact (edge_calls_snd g _ e hk).2.2
  · intro fuel hle σ f data ce
    exact edge_link_connected g f ce fuel _ _ data order (ho fuel hle) hc hl

theorem C4_edge_BFS_correct_witness :
    (cycle3.WellFormed ∧ [1].Pairwise (fun a b => a < b) ∧ (∀ s ∈ [1], cycle3.valid s) ∧
      ∀ v, Reachable cycle3 [1] v → ∀ p ∈ (cycle3.deref v).output,
        p.other_kernel ≠ nullptr ∧
        ∃ dst, getPortInfoFor (cycle3.deref p.other_kernel).input p.other_name = .ok dst) ∧
    ∃ (N : Nat) (visits : List KernelPtr) (calls : List (PortInfo × PortInfo)),
      visits.Nodup ∧ (∀ v, v ∈ visits ↔ Reachable cycle3 [1] v) ∧
      calls.map Prod.fst = visits.flatMap (fun k => (cycle3.deref k).output) ∧
      (∀ e ∈ calls,
        getPortInfoFor (cycle3.deref e.1.other_kernel).input e.1.other_name = .ok e.2) ∧
      ∀ (fuel : Nat), N ≤ fuel →
        ∀ (σ : Type) (f : edge_func σ) (data : σ) (connected_error : Bool),
          ∃ st, BFS_set_edge_func cycle3 [1] f data connected_error [] fuel =
              some (.returned st) ∧
            st.locks = [] ∧ st.data = calls.foldl (fun d e => f e.1 e.2 d) data :=
  ⟨⟨by decide, by decide, by decide, fun v _ => cycle3_lookups v⟩,
    C4_edge_BFS_correct cycle3 [1] (by decide) (by decide) (by decide)
      (fun v _ => cycle3_lookups v)⟩

/-- C5: on the chain `A -> B -> C` whose kernel `A` has an unconnected output
port ahead of its connected one, edge-visitor `BFS` with
`connected_error = false` calls the visitor for the edge `A -> B` only and
returns with `B` still queued: the null `other_kernel` was pushed on the queue
and the loop stopped when it was dequeued, so the connected edge `B -> C` of the
reachable kernel `B` is never visited. -/
theorem C5_tolerant_mode_stops_at_null (fuel : Nat) :
    BFS_set_edge_func dangling [1] record_edges [] false [] (fuel + 2) =
      some (.returned ⟨[2], [2, nullptr, 1], [],
        [(⟨"b", 2, "in", false⟩, ⟨"in", 1, "b", false⟩)]⟩) := by
  rfl

/-- C6: vertex-visitor `BFS` from a single non-null source `s` of a finite graph
returns (given enough fuel) with the list of visits it recorded in
non-decreasing order of shortest-path distance from `s`: every visited kernel
has a shortest-path distance `dist`, and a kernel visited earlier is never
farther than one visited later; on the chain `A -> B -> C` seeded at `A` the
visits are `A`, `B`, `C` in this order. -/
theorem C6_level_order (g : Graph) (s : KernelPtr) (hwf : g.WellFormed) (hs : g.valid s) :
    (∃ (N : Nat) (visits : List KernelPtr) (dist : KernelPtr → Nat),
      (∀ v ∈ visits, IsDist g [s] v (dist v)) ∧
      visits.Pairwise (fun a b => dist a ≤ dist b) ∧
      ∀ fuel, N ≤ fuel →
        ∃ st, BFS_set_vertex_func g [s] record_visits [] [] fuel = some (.returned st) ∧
          st.data = visits) ∧
    BFS_set_vertex_func chain3 [1] record_visits [] [] 4 =
      some (.returned ⟨[], [3, 2, 1], [], [1, 2, 3]⟩) := by
  refine ⟨?_, by decide⟩
  obtain ⟨N, order, lev, ho, hnd, hmem, hsorted, hdist⟩ :=
    bfs_order_spec g [s] hwf (List.nodup_singleton s)
      (fun x hx => by rw [List.mem_singleton.mp hx]; exact hs)
  refine ⟨N, order, lev, hdist, hsorted, ?_⟩
  intro fuel hle
  obtain ⟨st, h1, _, h3⟩ :=
    vertex_link g (fun k tr => tr ++ [k]) fuel _ _ [] order (ho fuel hle)
  refine ⟨st, h1, ?_⟩
  rw [h3]
  simpa using foldl_snoc order []

theorem C6_level_order_witness :
    (chain3.WellFormed ∧ chain3.valid 1) ∧
    (∃ (N : Nat) (visits : List KernelPtr) (dist : KernelPtr → Nat),
      (∀ v ∈ visits, IsDist chain3 [1] v (dist v)) ∧
      visits.Pairwise (fun a b => dist a ≤ dist b) ∧
      ∀ fuel, N ≤ fuel →
        ∃ st, BFS_set_vertex_func chain3 [1] record_visits [] [] fuel =
            some (.returned st) ∧
          st.data = visits) ∧
    BFS_set_vertex_func chain3 [1] record_visits [] [] 4 =
      some (.returned ⟨[], [3, 2, 1], [], [1, 2, 3]⟩) :=
  ⟨⟨by decide, by decide⟩, C6_level_order chain3 1 (by decide) (by decide)⟩

/-- C7: for a kernel `A` whose `clone()` yields no instance,
`duplicateFromVertexToSource( A )` returns normally with an empty Wiring Map
(the specification asks for a failure and no map): the lambda holding the clone
check is never run; run on its own, the lambda ends the process with `EXIT_FAILURE`. -/
theorem C7_clone_failure_not_propagated (NDEBUG : Bool) :
    duplicateFromVertexToSource NDEBUG noclone 1 = .returned (some ⟨[]⟩) ∧
    ∀ fuel w, duplicate_visitor NDEBUG noclone fuel 1 w = some (.exited EXIT_FAILURE) := by
  constructor
  · cases NDEBUG <;> rfl
  · intro fuel w
    rfl

/-- C8: when the edge `__BFS` (which both edge-visitor `BFS` overloads run on the
seeded queue) is entered with `connected_error = true` and no port-table mutex
held, and it throws the unconnected-port `PortException`, no port-table mutex is
held in the state the exception leaves behind. -/
theorem C8_lock_release_on_unconnected {σ : Type} (g : Graph) (f : edge_func σ)
    (fuel : Nat) (st st' : State σ) (msg : String) (hfree : st.locks = [])
    (h : __BFS_edge_func g f true fuel st = some (.threw (.PortException msg) st')) :
    st'.locks = [] := by
  induction fuel generalizing st with
  | zero => simp [__BFS_edge_func] at h
  | succ fuel ih =>
    rw [__BFS_edge_func] at h
    cases hq : st.queue with
    | nil => simp [hq] at h
    | cons k rest =>
      simp only [hq] at h
      by_cases hk : k = nullptr
      · simp [hk] at h
      · simp only [if_neg hk, hfree, lock_free] at h
        cases hE : edge_ports g f true k (g.deref k).output
            { st with queue := rest, locks := [k] } with
        | returned st1 =>
          rw [hE] at h
          have hl := (edge_ports_locks g f true k _ _).1 st1 hE
          apply ih { st1 with locks := unlock st1.locks k }
          · show unlock st1.locks k = []
            rw [hl]
            exact unlock_self k
          · exact h
        | threw e st1 =>
          rw [hE] at h
          simp only [Option.some.injEq, Outcome.threw.injEq] at h
          obtain ⟨he, hst⟩ := h
          subst he hst
          have hl := (edge_ports_locks g f true k _ _).2 msg st1 hE
          rw [hl]
          exact unlock_self k
        | exited status =>
          rw [hE] at h
          simp at h
        | aborted =>
          rw [hE] at h
          simp at h

theorem C8_lock_release_on_unconnected_witness :
    ((⟨[1], [1], [], []⟩ : State (List (PortInfo × PortInfo))).locks = [] ∧
      __BFS_edge_func dangling record_edges true 3 ⟨[1], [1], [], []⟩ =
        some (.threw (.PortException (unconnectedMessage (dangling.deref 1)
          ⟨"a", nullptr, "", false⟩)) ⟨[], [1], [], []⟩)) ∧
    (⟨[], [1], [], []⟩ : State (List (PortInfo × PortInfo))).locks = [] :=
  ⟨⟨rfl, rfl⟩,
    C8_lock_release_on_unconnected dangling record_edges 3 ⟨[1], [1], [], []⟩
      ⟨[], [1], [], []⟩ _ rfl rfl⟩

/-- C9: on the edge `A -> B` whose `other_name` names no input port of `B`,
edge-visitor `BFS` ends with `PortNotFoundException` reaching the caller while
the output-port-table mutex of `A` is still held: nothing unlocks it on this
exit path. -/
theorem C9_lock_leak_on_failed_lookup (fuel : Nat) (connected_error : Bool) :
    BFS_set_edge_func badlookup [1] record_edges [] connected_error [] (fuel + 1) =
      some (.threw (.PortNotFoundException "in") ⟨[], [1], [1], []⟩) := by
  cases connected_error <;> rfl

/-- C10: the vector overload of edge-visitor `BFS`, called on the chain
`A -> B -> C` with the source vector `[A, A]`, dequeues `A` twice and calls the
edge visitor twice for the single edge `A -> B`. -/
theorem C10_vector_sources_not_deduplicated (fuel : Nat) (connected_error : Bool) :
    BFS_vector_edge_func chain3 [1, 1] record_edges [] connected_error [] (fuel + 5) =
      some (.returned ⟨[], [3, 2, 1], [],
        [(⟨"out", 2, "in", false⟩, ⟨"in", 1, "out", false⟩),
         (⟨"out", 2, "in", false⟩, ⟨"in", 1, "out", false⟩),
         (⟨"out", 3, "in", false⟩, ⟨"in", 2, "out", false⟩)]⟩) := by
  cases connected_error <;> rfl

/-- C11: starting from the empty accumulator with no mutex held, when `clone()`
succeeds on every original and never returns an original, successive calls of
the replication lambda on pairwise distinct originals all return, and every
endpoint of every link then held by the Wiring Map is a value of the Identity
Map and is not an original kernel. -/
theorem C11_no_original_leakage (NDEBUG : Bool) (g : Graph) (fuel : Nat)
    (ks : List KernelPtr) (hvalid : ∀ k ∈ ks, g.valid k) (hnd : ks.Nodup)
    (hclone : ∀ k, g.valid k →
      (g.deref k).clone ≠ nullptr ∧ ¬ g.valid (g.deref k).clone) :
    ∃ w, visitor_calls NDEBUG g (fuel + 1) ks ⟨[], Data.init⟩ = some (.returned w) ∧
      ∀ l ∈ w.data.temp_map.links,
        (l.src ∈ w.data.kernel_map.map Prod.snd ∧ ¬ g.valid l.src) ∧
        (l.dst ∈ w.data.kernel_map.map Prod.snd ∧ ¬ g.valid l.dst) := by
  obtain ⟨w, h1, _, h3, h4, h5⟩ := visitor_calls_inv NDEBUG g fuel ks ⟨[], Data.init⟩ []
    (fun k hk => (hclone k (hvalid k hk)).1) hnd (fun k _ => by simp) rfl rfl
    (fun v hv => by simp [Data.init] at hv) (fun l hl => by simp [Data.init] at hl)
  have horig : ∀ v ∈ w.data.kernel_map.map Prod.snd, ¬ g.valid v := by
    intro v hv
    obtain ⟨k, hk, e⟩ := h4 v hv
    rw [e]
    exact (hclone k (hvalid k (by simpa using hk))).2
  refine ⟨w, h1, fun l hl => ?_⟩
  obtain ⟨a, b⟩ := h5 l hl
  exact ⟨⟨a, horig _ a⟩, ⟨b, horig _ b⟩⟩

theorem C11_no_original_leakage_witness :
    ((∀ k ∈ [1, 2, 3], cycle3.valid k) ∧ [1, 2, 3].Nodup ∧
      ∀ k, cycle3.valid k →
        (cycle3.deref k).clone ≠ nullptr ∧ ¬ cycle3.valid (cycle3.deref k).clone) ∧
    ∃ w, visitor_calls false cycle3 (0 + 1) [1, 2, 3] ⟨[], Data.init⟩ = some (.returned w) ∧
      ∀ l ∈ w.data.temp_map.links,
        (l.src ∈ w.data.kernel_map.map Prod.snd ∧ ¬ cycle3.valid l.src) ∧
        (l.dst ∈ w.data.kernel_map.map Prod.snd ∧ ¬ cycle3.valid l.dst) :=
  ⟨⟨by decide, by decide, cycle3_clones⟩,
    C11_no_original_leakage false cycle3 0 [1, 2, 3] (by decide) (by decide) cycle3_clones⟩

/-- C13: edge-visitor `BFS` with `connected_error = false`, on a finite graph and
a set of non-null sources where the input-port lookup of every connected port of
a reachable kernel succeeds, returns normally (given enough fuel, no exception,
all mutexes free), and every call it made to the edge visitor was for an output
port whose `other_kernel` is not null. -/
theorem C13_unconnected_tolerant (g : Graph) (source_kernels : List KernelPtr)
    (hwf : g.WellFormed) (hset : source_kernels.Pairwise (fun a b => a < b))
    (hsrc : ∀ s ∈ source_kernels, g.valid s)
    (hlook : ∀ v, Reachable g source_kernels v → ∀ p ∈ (g.deref v).output,
      p.other_kernel ≠ nullptr →
      ∃ dst, getPortInfoFor (g.deref p.other_kernel).input p.other_name = .ok dst) :
    ∃ N, ∀ fuel, N ≤ fuel →
      ∃ calls : List (PortInfo × PortInfo),
        (∀ e ∈ calls, e.1.other_kernel ≠ nullptr) ∧
        ∀ (σ : Type) (f : edge_func σ) (data : σ),
          ∃ st, BFS_set_edge_func g source_kernels f data false [] fuel =
              some (.returned st) ∧
            st.locks = [] ∧ st.data = calls.foldl (fun d e => f e.1 e.2 d) data := by
  obtain ⟨N, order, lev, ho, hnd, hmem, _, _⟩ :=
    bfs_order_spec g source_kernels hwf (nodup_of_set hset) hsrc
  have hl : LookupsSucceed g order := fun k hk => hlook k ((hmem k).mp hk)
  have hag : AgreeUpToNull (seed source_kernels).1 (seed source_kernels).2
      (seed source_kernels).1 (seed source_kernels).2 := by
    refine ⟨?_, fun x _ => Iff.rfl⟩
    rw [seed_fst, List.filter_eq_self]
    intro a ha
    simpa using valid_ne_nullptr (hsrc a ha)
  refine ⟨N, fun fuel hle => ?_⟩
  obtain ⟨calls, hc1, hc2⟩ := edge_link_tolerant g fuel _ _ _ _ order hag (ho fuel hle) hl
  exact ⟨calls, fun e he => (hc1 e he).1, hc2⟩

theorem C13_unconnected_tolerant_witness :
    (dangling.WellFormed ∧ [1].Pairwise (fun a b => a < b) ∧ (∀ s ∈ [1], dangling.valid s) ∧
      ∀ v, Reachable dangling [1] v → ∀ p ∈ (dangling.deref v).output,
        p.other_kernel ≠ nullptr →
        ∃ dst, getPortInfoFor (dangling.deref p.other_kernel).input p.other_name = .ok dst) ∧
    ∃ N, ∀ fuel, N ≤ fuel →
      ∃ calls : List (PortInfo × PortInfo),
        (∀ e ∈ calls, e.1.other_kernel ≠ nullptr) ∧
        ∀ (σ : Type) (f : edge_func σ) (data : σ),
          ∃ st, BFS_set_edge_func dangling [1] f data false [] fuel =
              some (.returned st) ∧
            st.locks = [] ∧ st.data = calls.foldl (fun d e => f e.1 e.2 d) data :=
  ⟨⟨by decide, by decide, by decide, fun v _ => dangling_lookups v⟩,
    C13_unconnected_tolerant dangling [1] (by decide) (by decide) (by decide)
      (fun v _ => dangling_lookups v)⟩

/-- C14: `duplicateFromVertexToSink( start )` returns the null Wiring Map for
every `start`; it reads and changes nothing. -/
theorem C14_sink_duplication_is_stub (start : KernelPtr) :
    duplicateFromVertexToSink start = .returned none := by
  rfl

/-- C15, as stated, fails: called with the seed stack `[A]`, the vertex `__DFS`
does not return with `A` visited, neither with assertions compiled in nor with
`NDEBUG`. -/
theorem C15_DFS_visits_nothing_counterexample :
    ¬ ((∃ st, __DFS_vertex_func false record_visits ⟨[1], [1], [], []⟩ = .returned st ∧
          (1 : KernelPtr) ∈ st.data) ∨
       (∃ st, __DFS_vertex_func true record_visits ⟨[1], [1], [], []⟩ = .returned st ∧
          (1 : KernelPtr) ∈ st.data)) := by
  rintro (⟨st, h, hm⟩ | ⟨st, h, hm⟩)
  · simp [__DFS_vertex_func] at h
  · simp only [__DFS_vertex_func, Bool.true_eq_false, if_false, Outcome.returned.injEq] at h
    rw [← h] at hm
    simp at hm

/-- C15, amended: the vertex `__DFS` is a stub whose body is `assert( false )`. It
never calls the visitor: with assertions compiled in it aborts, and with
`NDEBUG` it returns at once, leaving stack, visited set, mutexes and context as
they were. -/
theorem C15_DFS_is_stub {σ : Type} (func : vertex_func σ) (st : State σ) :
    __DFS_vertex_func false func st = .aborted ∧
    __DFS_vertex_func true func st = .returned st := by
  constructor <;> rfl

/-- C16: after the lambda has visited `A` and then `B` of the graph `A -> B`,
`B -> C`, `B -> D`, the Unmatched-Edge Set holds the single entry for port `x`
of `B`; the entry for port `y`, whose destination `D` has no clone either, is
missing, because the set is a map keyed by the visited kernel. -/
theorem C16_second_unmatched_port_dropped (NDEBUG : Bool) (fuel : Nat) :
    visitor_calls NDEBUG fanout (fuel + 1) [1, 2] ⟨[], Data.init⟩ =
      some (.returned ⟨[], ⟨[(1, 11), (2, 12)], [(2, ⟨"x", 3, "in", false⟩)], ⟨[]⟩⟩⟩) := by
  cases NDEBUG <;> rfl

/-- C18: run as the vertex visitor of `BFS` on the chain `A -> B -> C` seeded at
`A`, with no mutex held on entry, the replication lambda never lets the
traversal finish, whatever the fuel: `__BFS` holds the mutex of `B` when it
calls the lambda on `B`, and the lambda's own `try_lock` loop on that mutex
never succeeds. -/
theorem C18_replication_visitor_spins (NDEBUG : Bool) (fuel : Nat) :
    BFS_set_vertex_func chain3 [1] (duplicate_visitor NDEBUG chain3) Data.init [] fuel =
      none := by
  have hspin : ∀ n, lock [2] 2 n = none := lock_held (by simp)
  match fuel with
  | 0 => rfl
  | 1 => cases NDEBUG <;> rfl
  | n + 2 =>
    cases NDEBUG <;>
      simp [BFS_set_vertex_func, seed, __BFS_vertex_func, duplicate_visitor, map_insert,
        vertex_ports, lock, unlock, chain3, Graph.deref, Data.init, hspin, List.lookup]

/-- C19: on a finite graph, entered with any queue (sources may repeat, cycles
and self-loops are allowed), any visited set and no port-table mutex held, both
`__BFS` loops end once the fuel exceeds a bound that depends only on the graph,
the queue and the visited set: the edge-visitor loop for either value of
`connected_error` (by returning or by throwing), the vertex-visitor loop for
every visitor that returns. -/
theorem C19_BFS_terminates (g : Graph) (hwf : g.WellFormed)
    (queue visited_set : List KernelPtr) :
    ∃ N, ∀ fuel, N ≤ fuel →
      ∀ (σ : Type) (edge_visitor : edge_func σ) (vertex_visitor : KernelPtr → σ → σ)
        (data : σ) (connected_error : Bool),
        (∃ out, __BFS_edge_func g edge_visitor connected_error fuel
          ⟨queue, visited_set, [], data⟩ = some out) ∧
        (∃ out, __BFS_vertex_func g (pure_visitor vertex_visitor) fuel
          ⟨queue, visited_set, [], data⟩ = some out) := by
  refine ⟨queue.length + unvisited g.kernels.length visited_set + 1, ?_⟩
  intro fuel hle σ fe fv data ce
  have hm : queue.length + unvisited g.kernels.length visited_set < fuel := by omega
  exact ⟨edge_BFS_terminates g hwf fe ce fuel ⟨queue, visited_set, [], data⟩ rfl hm,
    vertex_BFS_terminates g hwf fv fuel ⟨queue, visited_set, [], data⟩ rfl hm⟩

theorem C19_BFS_terminates_witness :
    cycle3.WellFormed ∧
    ∃ N, ∀ fuel, N ≤ fuel →
      ∀ (σ : Type) (edge_visitor : edge_func σ) (vertex_visitor : KernelPtr → σ → σ)
        (data : σ) (connected_error : Bool),
        (∃ out, __BFS_edge_func cycle3 edge_visitor connected_error fuel
          ⟨[1, 1], [1], [], data⟩ = some out) ∧
        (∃ out, __BFS_vertex_func cycle3 (pure_visitor vertex_visitor) fuel
          ⟨[1, 1], [1], [], data⟩ = some out) :=
  ⟨by decide, C19_BFS_terminates cycle3 (by decide) [1, 1] [1]⟩

/-- C20: whenever the edge `__BFS` (run by both edge-visitor `BFS` overloads)
throws the unconnected-port `PortException`, there is exactly one kernel `k`
whose enumeration throws in that run: `k` was dequeued after the port loops of
all kernels dequeued before it had run to their end, and the port loop of `k`
is the one that throws this exception and leaves this state. The message is
built from the display name of this `k` and the `my_name` of an output port `p`
of `k` whose `other_kernel` is null, and `p` is the first such port in the
iteration order of the port table of `k`. -/
theorem C20_unconnected_message {σ : Type} (g : Graph) (f : edge_func σ)
    (connected_error : Bool) (fuel : Nat) (st st' : State σ) (msg : String)
    (h : __BFS_edge_func g f connected_error fuel st =
      some (.threw (.PortException msg) st')) :
    ∃ k s pre p post,
      Enumerating g f connected_error st k s ∧
      edge_ports g f connected_error k (g.deref k).output s =
        .threw (.PortException msg) st' ∧
      (∀ k' s' e x, Enumerating g f connected_error st k' s' →
        edge_ports g f connected_error k' (g.deref k').output s' = .threw e x → k' = k) ∧
      (k ∈ st.queue ∨ k ∈ st'.visited_set) ∧ k ≠ nullptr ∧
      (g.deref k).output = pre ++ p :: post ∧
      (∀ q ∈ pre, q.other_kernel ≠ nullptr) ∧ p.other_kernel = nullptr ∧
      msg = "Unconnected port detected at " ++ (g.deref k).name ++ "[ \"" ++ p.my_name ++
        " \"], please fix and recompile." := by
  obtain ⟨k, s, pre, p, post, hen, hthrow, hrest⟩ :=
    edge_BFS_message g f connected_error fuel st st' msg h
  refine ⟨k, s, pre, p, post, hen, hthrow, ?_, hrest⟩
  intro k' s' e x hen' hthrow'
  exact (Enumerating.throw_unique hen' hthrow' hen hthrow).1

theorem C20_unconnected_message_witness :
    (__BFS_edge_func twonull record_edges true 3 ⟨[1], [1], [], []⟩ =
      some (.threw (.PortException
        "Unconnected port detected at B[ \"x \"], please fix and recompile.")
        ⟨[3], [3, 2, 1], [],
          [(⟨"b", 2, "in", false⟩, ⟨"in", 1, "b", false⟩),
           (⟨"c", 3, "in", false⟩, ⟨"in", 1, "c", false⟩)]⟩)) ∧
    ∃ k s pre p post,
      Enumerating twonull record_edges true ⟨[1], [1], [], []⟩ k s ∧
      edge_ports twonull record_edges true k (twonull.deref k).output s =
        .threw (.PortException
          "Unconnected port detected at B[ \"x \"], please fix and recompile.")
          ⟨[3], [3, 2, 1], [],
            [(⟨"b", 2, "in", false⟩, ⟨"in", 1, "b", false⟩),
             (⟨"c", 3, "in", false⟩, ⟨"in", 1, "c", false⟩)]⟩ ∧
      (∀ k' s' e x, Enumerating twonull record_edges true ⟨[1], [1], [], []⟩ k' s' →
        edge_ports twonull record_edges true k' (twonull.deref k').output s' =
          .threw e x → k' = k) ∧
      (k ∈ (⟨[1], [1], [], []⟩ : State (List (PortInfo × PortInfo))).queue ∨
        k ∈ (⟨[3], [3, 2, 1], [],
          [(⟨"b", 2, "in", false⟩, ⟨"in", 1, "b", false⟩),
           (⟨"c", 3, "in", false⟩, ⟨"in", 1, "c", false⟩)]⟩ :
            State (List (PortInfo × PortInfo))).visited_set) ∧
      k ≠ nullptr ∧ (twonull.deref k).output = pre ++ p :: post ∧
      (∀ q ∈ pre, q.other_kernel ≠ nullptr) ∧ p.other_kernel = nullptr ∧
      "Unconnected port detected at B[ \"x \"], please fix and recompile." =
        "Unconnected port detected at " ++ (twonull.deref k).name ++ "[ \"" ++ p.my_name ++
          " \"], please fix and recompile." :=
  ⟨by decide,
    C20_unconnected_message twonull record_edges true 3 ⟨[1], [1], [], []⟩ _ _ (by decide)⟩

end GraphTools
